import Mathlib

/-!
Verification of the git-p4 bridge (git-p4.py).

Python strings are modelled as `List Char` (`PStr`); Python dicts whose
iteration order is irrelevant are modelled as association lists where
insertion prepends and lookup returns the most recent binding.  Child
processes (the p4 client, the git driver) are external collaborators:
their answers enter the model as explicit arguments, and the fast-import
byte stream is modelled as a list of structured records.
-/

set_option maxHeartbeats 1600000

/-- Python strings, modelled as lists of characters. -/
abbrev PStr := List Char

/-- Whitespace test used by Python `str.strip()` (space, tab, CR, LF
cover every character that occurs in the strings handled here). -/
def pySpace (c : Char) : Bool :=
  c = ' ' ∨ c = '\t' ∨ c = '\r' ∨ c = '\n'

/-- Python `s.strip()`: remove leading and trailing whitespace. -/
def pyStrip (s : PStr) : PStr :=
  ((s.dropWhile pySpace).reverse.dropWhile pySpace).reverse

/-- Python `s.split(sep)` for a single-character separator: splits at every
occurrence, keeping empty pieces, and returns `[s]` when the separator is
absent (so the result is never empty). -/
def pySplit (sep : Char) : PStr → List PStr
  | [] => [[]]
  | c :: rest =>
    match pySplit sep rest with
    | [] => [[]]
    | h :: t => if c = sep then [] :: h :: t else (c :: h) :: t

/-- Python `sep.join(parts)` for a single-character separator. -/
def pyJoin (sep : Char) : List PStr → PStr
  | [] => []
  | [p] => p
  | p :: rest => p ++ sep :: pyJoin sep rest

/-- Association-list store for a Python dict: insertion prepends. -/
def mapInsert (m : List (PStr × PStr)) (k v : PStr) : List (PStr × PStr) :=
  (k, v) :: m

/-- Lookup in the dict model: the most recently inserted binding wins. -/
def mapLookup (m : List (PStr × PStr)) (k : PStr) : Option PStr :=
  match m.find? (fun p => p.1 = k) with
  | some p => some p.2
  | none => none

theorem pySplit_ne_nil (sep : Char) (s : PStr) : pySplit sep s ≠ [] := by
  cases s with
  | nil => simp [pySplit]
  | cons c rest =>
    simp only [pySplit]
    cases h : pySplit sep rest with
    | nil => simp
    | cons h t =>
      by_cases hc : c = sep <;> simp [hc]

theorem pySplit_cons_sep (sep : Char) (s : PStr) :
    pySplit sep (sep :: s) = [] :: pySplit sep s := by
  simp only [pySplit]
  cases h : pySplit sep s with
  | nil => exact absurd h (pySplit_ne_nil sep s)
  | cons a t => simp

theorem pySplit_cons_ne (sep c : Char) (s : PStr) (hc : c ≠ sep) :
    pySplit sep (c :: s) =
      (c :: (pySplit sep s).headI) :: (pySplit sep s).tail := by
  simp only [pySplit]
  cases h : pySplit sep s with
  | nil => exact absurd h (pySplit_ne_nil sep s)
  | cons a t => simp [hc]

theorem pySplit_append_no_sep (sep : Char) (a b : PStr)
    (ha : ∀ c ∈ a, c ≠ sep) :
    pySplit sep (a ++ b) =
      (a ++ (pySplit sep b).headI) :: (pySplit sep b).tail := by
  induction a with
  | nil => cases h : pySplit sep b with
    | nil => exact absurd h (pySplit_ne_nil sep b)
    | cons x t => simp [h]
  | cons c rest ih =>
    have hc : c ≠ sep := ha c (by simp)
    have ih' := ih (fun x hx => ha x (by simp [hx]))
    rw [List.cons_append, pySplit_cons_ne sep c (rest ++ b) hc, ih']
    simp

theorem pySplit_no_sep (sep : Char) (a : PStr) (ha : ∀ c ∈ a, c ≠ sep) :
    pySplit sep a = [a] := by
  have := pySplit_append_no_sep sep a [] ha
  simpa [pySplit] using this

theorem pyJoin_pySplit (sep : Char) (s : PStr) :
    pyJoin sep (pySplit sep s) = s := by
  induction s with
  | nil => simp [pySplit, pyJoin]
  | cons c rest ih =>
    by_cases hc : c = sep
    · rw [hc, pySplit_cons_sep]
      cases h : pySplit sep rest with
      | nil => exact absurd h (pySplit_ne_nil sep rest)
      | cons a t =>
        rw [h] at ih
        simp [pyJoin, ih]
    · rw [pySplit_cons_ne sep c rest hc]
      cases h : pySplit sep rest with
      | nil => exact absurd h (pySplit_ne_nil sep rest)
      | cons a t =>
        rw [h] at ih
        cases t with
        | nil => simp [pyJoin] at ih ⊢; simp [ih]
        | cons b t2 => simp [pyJoin] at ih ⊢; simp [ih]

theorem dropWhile_all_append (p : Char → Bool) (a l : PStr)
    (ha : ∀ c ∈ a, p c) :
    (a ++ l).dropWhile p = l.dropWhile p := by
  induction a with
  | nil => simp
  | cons c rest ih =>
    have hc : p c := ha c (by simp)
    rw [List.cons_append, List.dropWhile_cons]
    simp only [hc, if_true]
    exact ih (fun x hx => ha x (by simp [hx]))

theorem dropWhile_head_false (p : Char → Bool) (l : PStr)
    (hl : l ≠ []) (hhd : ¬ p l.headI) :
    l.dropWhile p = l := by
  cases l with
  | nil => rfl
  | cons x xs =>
    rw [List.dropWhile_cons]
    simp only [List.headI] at hhd
    simp [hhd]

theorem pyStrip_of_ends (a m b : PStr)
    (ha : ∀ c ∈ a, pySpace c)
    (hb : ∀ c ∈ b, pySpace c)
    (hm : m ≠ [])
    (hhd : ¬ pySpace m.headI)
    (hlast : ¬ pySpace m.reverse.headI) :
    pyStrip (a ++ m ++ b) = m := by
  unfold pyStrip
  have h1 : (a ++ m ++ b).dropWhile pySpace = m ++ b := by
    rw [List.append_assoc, dropWhile_all_append pySpace a (m ++ b) ha]
    cases m with
    | nil => exact absurd rfl hm
    | cons x xs =>
      rw [List.cons_append, List.dropWhile_cons]
      simp only [List.headI] at hhd
      simp [hhd]
  rw [h1, List.reverse_append,
    dropWhile_all_append pySpace b.reverse m.reverse
      (fun x hx => hb x (by simpa using hx))]
  rw [dropWhile_head_false pySpace m.reverse (by simpa using hm) hlast]
  simp

/-! ## Provenance store: `extractSettingsFromNotes` (git-p4.py lines 442-469)
and the note body written by `P4Sync.commit` (lines 1648-1652). -/

/-- Decimal numeral character, as produced by Python `str` on an int digit. -/
def digitChar (d : Nat) : Char :=
  if d = 0 then '0' else if d = 1 then '1' else if d = 2 then '2'
  else if d = 3 then '3' else if d = 4 then '4' else if d = 5 then '5'
  else if d = 6 then '6' else if d = 7 then '7' else if d = 8 then '8'
  else if d = 9 then '9' else '?'

/-- Decimal rendering of a natural number, modelling Python `str(n)` /
`"%s" % n` for the changelist numbers the depot reports. -/
def natStr (n : Nat) : PStr :=
  if _h : n < 10 then [digitChar n]
  else natStr (n / 10) ++ [digitChar (n % 10)]
decreasing_by exact Nat.div_lt_self (by omega) (by omega)

/-- Characters that can appear in a decimal numeral are benign for the
note parser: not a separator, not a quote, not whitespace. -/
def numeralOK (c : Char) : Prop :=
  c ≠ ':' ∧ c ≠ '\n' ∧ c ≠ '"' ∧ c ≠ '=' ∧ pySpace c = false

theorem digitChar_numeralOK (d : Nat) : numeralOK (digitChar d) := by
  unfold digitChar numeralOK
  split_ifs <;> (refine ⟨?_, ?_, ?_, ?_, ?_⟩ <;> decide)

theorem natStr_ne_nil (n : Nat) : natStr n ≠ [] := by
  unfold natStr
  split_ifs <;> simp

theorem natStr_numeralOK (n : Nat) : ∀ c ∈ natStr n, numeralOK c := by
  induction n using Nat.strong_induction_on with
  | _ n ih =>
    intro c hc
    unfold natStr at hc
    split_ifs at hc with h
    · simp at hc
      exact hc ▸ digitChar_numeralOK n
    · simp at hc
      rcases hc with hc | hc
      · exact ih (n / 10) (Nat.div_lt_self (by omega) (by omega)) c hc
      · exact hc ▸ digitChar_numeralOK (n % 10)

/-- Key `depot-paths` as a character list. -/
def kDepotPaths : PStr := ['d', 'e', 'p', 'o', 't', '-', 'p', 'a', 't', 'h', 's']

/-- Key `depot-path` (legacy singular form also accepted by the parser). -/
def kDepotPath : PStr := ['d', 'e', 'p', 'o', 't', '-', 'p', 'a', 't', 'h']

/-- Key `change`. -/
def kChange : PStr := ['c', 'h', 'a', 'n', 'g', 'e']

/-- Key `options`. -/
def kOptions : PStr := ['o', 'p', 't', 'i', 'o', 'n', 's']

/-- Model of `re.search(r"^ *\[(.*)\]$", note)`: the note must consist of
leading spaces, `[`, a bracketed body free of newlines, `]`, and at most
one trailing newline (`$` matches just before a final newline); the
greedy group is everything between the first `[` and the final `]`. -/
def matchNoteBody (note : PStr) : Option PStr :=
  let s := if note.getLast? = some '\n' then note.dropLast else note
  let t := s.dropWhile (fun c => c = ' ')
  if t ≠ [] ∧ t.headI = '[' ∧ t.tail.getLast? = some ']'
      ∧ t.tail.dropLast.all (fun ch => ch ≠ '\n')
  then some t.tail.dropLast else none

/-- One iteration of the assignment loop in `extractSettingsFromNotes`:
split on the first `=`, strip both sides, strip surrounding quotes from
the value, store. -/
def parseAssignment (values : List (PStr × PStr)) (a : PStr) : List (PStr × PStr) :=
  match pySplit '=' a with
  | [] => values
  | v0 :: rest =>
    let key := pyStrip v0
    let val0 := pyStrip (pyJoin '=' rest)
    let val := if val0 ≠ [] ∧ val0.headI = '"' ∧ val0.getLast? = some '"'
      then val0.tail.dropLast else val0
    mapInsert values key val

/-- Result of `extractSettingsFromNotes`: the raw key/value assignments,
plus the `depot-paths` value split on commas (the Python code overwrites
`values['depot-paths']` with that list when a non-empty value is found
under `depot-paths`, falling back to the legacy `depot-path` key). -/
structure NoteSettings where
  values : List (PStr × PStr)
  depotPaths : Option (List PStr)
  deriving Repr, DecidableEq

/-- Model of `extractSettingsFromNotes` (lines 442-469): match the
bracketed body, split on `:` into assignments, parse each, then
post-process the depot-paths value. -/
def extractSettingsFromNotes (note : PStr) : NoteSettings :=
  match matchNoteBody note with
  | none => ⟨[], none⟩
  | some inner =>
    let values := (pySplit ':' inner).foldl parseAssignment []
    let paths :=
      match mapLookup values kDepotPaths with
      | some p => if p ≠ [] then some p else none
      | none => none
    let paths :=
      match paths with
      | some p => some p
      | none =>
        match mapLookup values kDepotPath with
        | some p => if p ≠ [] then some p else none
        | none => none
    match paths with
    | some p => ⟨values, some (pySplit ',' p)⟩
    | none => ⟨values, none⟩

/-- Inner text of the provenance record written by `P4Sync.commit`
(lines 1648-1652): `depot-paths = "<joined>": change = <n>` with an
optional `: options = <opts>` tail. -/
def noteInner (branchPrefixes : List PStr) (change opts : PStr) : PStr :=
  kDepotPaths ++ [' ', '=', ' ', '"'] ++ pyJoin ',' branchPrefixes
    ++ ['"', ':', ' '] ++ kChange ++ [' ', '=', ' '] ++ change
    ++ (if opts ≠ [] then [':', ' '] ++ kOptions ++ [' ', '=', ' '] ++ opts else [])

/-- Full note body `[<inner>]` as stored in the note blob (the commit
writes it followed by a newline inside the delimited `data` block). -/
def noteBody (branchPrefixes : List PStr) (change opts : PStr) : PStr :=
  '[' :: noteInner branchPrefixes change opts ++ [']']

theorem mem_pyJoin (sep : Char) (P : List PStr) (ch : Char)
    (h : ch ∈ pyJoin sep P) : ch = sep ∨ ∃ p ∈ P, ch ∈ p := by
  induction P with
  | nil => simp [pyJoin] at h
  | cons p rest ih =>
    cases rest with
    | nil =>
      simp [pyJoin] at h
      exact Or.inr ⟨p, by simp, h⟩
    | cons q t =>
      simp only [pyJoin, List.mem_append, List.mem_cons] at h
      rcases h with h | h | h
      · exact Or.inr ⟨p, by simp, h⟩
      · exact Or.inl h
      · rcases ih h with h2 | ⟨r, hr, hcr⟩
        · exact Or.inl h2
        · exact Or.inr ⟨r, by simp [hr], hcr⟩

theorem headI_mem_self (l : PStr) (h : l ≠ []) : l.headI ∈ l := by
  cases l with
  | nil => exact absurd rfl h
  | cons x xs => simp [List.headI]

theorem pySplit_append_sep (sep : Char) (a b : PStr)
    (ha : ∀ c ∈ a, c ≠ sep) :
    pySplit sep (a ++ sep :: b) = a :: pySplit sep b := by
  rw [pySplit_append_no_sep sep a (sep :: b) ha, pySplit_cons_sep]
  simp

theorem parseAssignment_split (values : List (PStr × PStr)) (pre post : PStr)
    (hpre : ∀ c ∈ pre, c ≠ '=') :
    parseAssignment values (pre ++ '=' :: post) =
      (let val0 := pyStrip post
       let val := if val0 ≠ [] ∧ val0.headI = '"' ∧ val0.getLast? = some '"'
         then val0.tail.dropLast else val0
       mapInsert values (pyStrip pre) val) := by
  unfold parseAssignment
  rw [pySplit_append_sep '=' pre post hpre]
  simp only []
  cases h : pySplit '=' post with
  | nil => exact absurd h (pySplit_ne_nil '=' post)
  | cons x t =>
    have hj : pyJoin '=' (x :: t) = post := by rw [← h]; exact pyJoin_pySplit '=' post
    simp [hj]

theorem matchNoteBody_bracketed (inner : PStr)
    (hn : ∀ c ∈ inner, c ≠ '\n') :
    matchNoteBody (('[' :: inner ++ [']']) ++ ['\n']) = some inner := by
  unfold matchNoteBody
  have h1 : (('[' :: inner ++ [']']) ++ ['\n']).getLast? = some '\n' :=
    List.getLast?_concat _
  rw [h1, if_pos rfl]
  have h2 : (('[' :: inner ++ [']']) ++ ['\n']).dropLast = '[' :: inner ++ [']'] :=
    List.dropLast_concat ..
  rw [h2]
  have h3 : (('[' :: (inner ++ [']'])) : PStr).dropWhile (fun c => c = ' ')
      = '[' :: (inner ++ [']']) := by
    rw [List.dropWhile_cons]
    simp
  dsimp only
  rw [List.cons_append, h3]
  have h5 : ((inner ++ [']']) : PStr).dropLast = inner := List.dropLast_concat ..
  rw [if_pos]
  · simp [h5]
  · refine ⟨by simp, by simp, List.getLast?_concat _, ?_⟩
    rw [List.tail_cons, h5]
    simp only [List.all_eq_true, decide_eq_true_eq]
    exact hn

theorem mapLookup_cons (m : List (PStr × PStr)) (k k' v : PStr) :
    mapLookup ((k', v) :: m) k = if k' = k then some v else mapLookup m k := by
  unfold mapLookup
  rw [List.find?_cons]
  by_cases h : k' = k
  · simp [h]
  · simp [h]

theorem parseAssignment_key (vs : List (PStr × PStr)) (a : PStr) :
    ∃ v, parseAssignment vs a = (pyStrip (pySplit '=' a).headI, v) :: vs := by
  unfold parseAssignment
  cases h : pySplit '=' a with
  | nil => exact absurd h (pySplit_ne_nil '=' a)
  | cons x t => exact ⟨_, rfl⟩

theorem pyStrip_numeral (n : Nat) : pyStrip (' ' :: natStr n) = natStr n := by
  have h := pyStrip_of_ends [' '] (natStr n) []
    (by intro c hc; simp at hc; subst hc; decide)
    (by intro c hc; simp at hc)
    (natStr_ne_nil n)
    (by
      intro hsp
      have hm := headI_mem_self (natStr n) (natStr_ne_nil n)
      have := (natStr_numeralOK n _ hm).2.2.2.2
      rw [this] at hsp; exact absurd hsp (by simp))
    (by
      intro hsp
      have hne : (natStr n).reverse ≠ [] := by simp [natStr_ne_nil n]
      have hm := headI_mem_self (natStr n).reverse hne
      rw [List.mem_reverse] at hm
      have := (natStr_numeralOK n _ hm).2.2.2.2
      rw [this] at hsp; exact absurd hsp (by simp))
  simpa using h

theorem parseAssignment_depotPaths (vs : List (PStr × PStr)) (J : PStr) :
    parseAssignment vs
        (kDepotPaths ++ [' ', '=', ' ', '"'] ++ J ++ ['"']) =
      (kDepotPaths, J) :: vs := by
  have hshape : (kDepotPaths ++ [' ', '=', ' ', '"'] ++ J ++ ['"'] : PStr) =
      (kDepotPaths ++ [' ']) ++ '=' :: ([' ', '"'] ++ J ++ ['"']) := by
    simp [kDepotPaths]
  rw [hshape, parseAssignment_split vs _ _
    (by exact fun c hc => (by decide : ∀ x ∈ (kDepotPaths ++ [' '] : PStr), x ≠ '=') c hc)]
  have hstrip : pyStrip ([' ', '"'] ++ J ++ ['"']) = '"' :: (J ++ ['"']) := by
    have h := pyStrip_of_ends [' '] ('"' :: (J ++ ['"'])) []
      (by intro c hc; simp at hc; subst hc; decide)
      (by intro c hc; simp at hc)
      (by simp)
      (by simp [List.headI]; decide)
      (by
        have : ('"' :: (J ++ ['"'])).reverse = ('"' :: J.reverse) ++ ['"'] := by simp
        rw [this]
        simp [List.headI]
        decide)
    calc pyStrip ([' ', '"'] ++ J ++ ['"'])
        = pyStrip ([' '] ++ ('"' :: (J ++ ['"'])) ++ []) := by simp
      _ = '"' :: (J ++ ['"']) := h
  rw [hstrip]
  dsimp only
  have hq : ('"' :: (J ++ ['"']) : PStr) ≠ [] ∧ ('"' :: (J ++ ['"'])).headI = '"'
      ∧ ('"' :: (J ++ ['"'])).getLast? = some '"' := by
    refine ⟨by simp, by simp [List.headI], ?_⟩
    have : ('"' :: (J ++ ['"']) : PStr) = ('"' :: J) ++ ['"'] := by simp
    rw [this]
    exact List.getLast?_concat _
  rw [if_pos hq]
  have hstrip2 : pyStrip (kDepotPaths ++ [' ']) = kDepotPaths := by decide
  rw [hstrip2]
  simp [mapInsert]

theorem parseAssignment_change (vs : List (PStr × PStr)) (n : Nat) :
    parseAssignment vs
        (' ' :: (kChange ++ [' ', '=', ' '] ++ natStr n)) =
      (kChange, natStr n) :: vs := by
  have hshape : (' ' :: (kChange ++ [' ', '=', ' '] ++ natStr n) : PStr) =
      ([' '] ++ kChange ++ [' ']) ++ '=' :: (' ' :: natStr n) := by
    simp [kChange]
  rw [hshape, parseAssignment_split vs _ _
    (by exact fun c hc => (by decide : ∀ x ∈ ([' '] ++ kChange ++ [' '] : PStr), x ≠ '=') c hc)]
  rw [pyStrip_numeral n]
  dsimp only
  have hq : ¬ ((natStr n ≠ []) ∧ (natStr n).headI = '"'
      ∧ (natStr n).getLast? = some '"') := by
    rintro ⟨-, h2, -⟩
    have hm := headI_mem_self (natStr n) (natStr_ne_nil n)
    exact (natStr_numeralOK n _ hm).2.2.1 h2
  rw [if_neg hq]
  have hstrip2 : pyStrip ([' '] ++ kChange ++ [' ']) = kChange := by decide
  rw [hstrip2]
  simp [mapInsert]

/-- C1: provenance round-trip.  For every commit emitted by the import
pipeline with branch prefixes `P`, changelist number `c` and options
string `opts` (the note body `[depot-paths = "p1,p2,...": change = c ...]`
written by `P4Sync.commit`, lines 1638-1652), parsing that note body with
`extractSettingsFromNotes` yields a depot-paths list equal to the
comma-joined prefixes split back on comma (surrounding quotes stripped)
and a change value equal to `c`.  The hypotheses exclude `:` and newline
characters from the prefixes and options, which would corrupt the
colon-separated record syntax itself. -/
theorem C1_provenance_roundtrip (P : List PStr) (c : Nat) (opts : PStr)
    (hJ : pyJoin ',' P ≠ [])
    (hPok : ∀ p ∈ P, ∀ ch ∈ p, ch ≠ ':' ∧ ch ≠ '\n')
    (hOok : ∀ ch ∈ opts, ch ≠ ':' ∧ ch ≠ '\n') :
    (extractSettingsFromNotes (noteBody P (natStr c) opts ++ ['\n'])).depotPaths
        = some (pySplit ',' (pyJoin ',' P)) ∧
    mapLookup (extractSettingsFromNotes (noteBody P (natStr c) opts ++ ['\n'])).values
        kChange = some (natStr c) := by
  have hJcol : ∀ ch ∈ pyJoin ',' P, ch ≠ ':' := by
    intro ch hm
    rcases mem_pyJoin ',' P ch hm with h | ⟨p, hp, hcp⟩
    · subst h; decide
    · exact (hPok p hp ch hcp).1
  have hJnl : ∀ ch ∈ pyJoin ',' P, ch ≠ '\n' := by
    intro ch hm
    rcases mem_pyJoin ',' P ch hm with h | ⟨p, hp, hcp⟩
    · subst h; decide
    · exact (hPok p hp ch hcp).2
  have hNcol : ∀ ch ∈ natStr c, ch ≠ ':' := fun ch hm => (natStr_numeralOK c ch hm).1
  have hNnl : ∀ ch ∈ natStr c, ch ≠ '\n' := fun ch hm => (natStr_numeralOK c ch hm).2.1
  have hAcol : ∀ ch ∈ (kDepotPaths ++ [' ', '=', ' ', '"'] ++ pyJoin ',' P ++ ['"'] : PStr),
      ch ≠ ':' := by
    intro ch hm
    simp only [List.mem_append] at hm
    rcases hm with ((h | h) | h) | h
    · exact (by decide : ∀ x ∈ kDepotPaths, x ≠ ':') ch h
    · exact (by decide : ∀ x ∈ ([' ', '=', ' ', '"'] : PStr), x ≠ ':') ch h
    · exact hJcol ch h
    · exact (by decide : ∀ x ∈ (['"'] : PStr), x ≠ ':') ch h
  have hBcol : ∀ ch ∈ (' ' :: (kChange ++ [' ', '=', ' '] ++ natStr c) : PStr),
      ch ≠ ':' := by
    intro ch hm
    simp only [List.mem_cons, List.mem_append] at hm
    rcases hm with h | (h | h) | h
    · subst h; decide
    · exact (by decide : ∀ x ∈ kChange, x ≠ ':') ch h
    · rcases h with h | h | h | h
      · subst h; decide
      · subst h; decide
      · subst h; decide
      · simp at h
    · exact hNcol ch h
  have hnInner : ∀ ch ∈ noteInner P (natStr c) opts, ch ≠ '\n' := by
    intro ch hm
    rw [noteInner] at hm
    simp only [List.mem_append] at hm
    rcases hm with ((((((h | h) | h) | h) | h) | h) | h) | h
    · exact (by decide : ∀ x ∈ kDepotPaths, x ≠ '\n') ch h
    · exact (by decide : ∀ x ∈ ([' ', '=', ' ', '"'] : PStr), x ≠ '\n') ch h
    · exact hJnl ch h
    · exact (by decide : ∀ x ∈ (['"', ':', ' '] : PStr), x ≠ '\n') ch h
    · exact (by decide : ∀ x ∈ kChange, x ≠ '\n') ch h
    · exact (by decide : ∀ x ∈ ([' ', '=', ' '] : PStr), x ≠ '\n') ch h
    · exact hNnl ch h
    · split_ifs at h with ho
      · simp only [List.mem_append] at h
        rcases h with ((h | h) | h) | h
        · exact (by decide : ∀ x ∈ ([':', ' '] : PStr), x ≠ '\n') ch h
        · exact (by decide : ∀ x ∈ kOptions, x ≠ '\n') ch h
        · exact (by decide : ∀ x ∈ ([' ', '=', ' '] : PStr), x ≠ '\n') ch h
        · exact (hOok ch h).2
      · simp at h
  have hV : mapLookup ((pySplit ':' (noteInner P (natStr c) opts)).foldl
          parseAssignment []) kDepotPaths = some (pyJoin ',' P)
      ∧ mapLookup ((pySplit ':' (noteInner P (natStr c) opts)).foldl
          parseAssignment []) kChange = some (natStr c) := by
    by_cases ho : opts = []
    · have hshape : noteInner P (natStr c) opts =
          (kDepotPaths ++ [' ', '=', ' ', '"'] ++ pyJoin ',' P ++ ['"'])
            ++ ':' :: (' ' :: (kChange ++ [' ', '=', ' '] ++ natStr c)) := by
        rw [noteInner, ho]
        simp [List.append_assoc]
      rw [hshape, pySplit_append_sep ':' _ _ hAcol, pySplit_no_sep ':' _ hBcol]
      simp only [List.foldl_cons, List.foldl_nil]
      rw [parseAssignment_depotPaths, parseAssignment_change]
      constructor
      · rw [mapLookup_cons, if_neg (by decide), mapLookup_cons, if_pos rfl]
      · rw [mapLookup_cons, if_pos rfl]
    · have hCcol : ∀ ch ∈ (' ' :: (kOptions ++ [' ', '=', ' '] ++ opts) : PStr),
          ch ≠ ':' := by
        intro ch hm
        simp only [List.mem_cons, List.mem_append] at hm
        rcases hm with h | (h | h) | h
        · subst h; decide
        · exact (by decide : ∀ x ∈ kOptions, x ≠ ':') ch h
        · rcases h with h | h | h | h
          · subst h; decide
          · subst h; decide
          · subst h; decide
          · simp at h
        · exact (hOok ch h).1
      have hshape : noteInner P (natStr c) opts =
          (kDepotPaths ++ [' ', '=', ' ', '"'] ++ pyJoin ',' P ++ ['"'])
            ++ ':' :: ((' ' :: (kChange ++ [' ', '=', ' '] ++ natStr c))
              ++ ':' :: (' ' :: (kOptions ++ [' ', '=', ' '] ++ opts))) := by
        rw [noteInner, if_pos ho]
        simp [List.append_assoc]
      rw [hshape, pySplit_append_sep ':' _ _ hAcol,
        pySplit_append_sep ':' _ _ hBcol, pySplit_no_sep ':' _ hCcol]
      simp only [List.foldl_cons, List.foldl_nil]
      rw [parseAssignment_depotPaths, parseAssignment_change]
      obtain ⟨vC, hvC⟩ := parseAssignment_key
        ((kChange, natStr c) :: (kDepotPaths, pyJoin ',' P) :: [])
        (' ' :: (kOptions ++ [' ', '=', ' '] ++ opts))
      rw [hvC]
      have hkey : pyStrip (pySplit '='
          (' ' :: (kOptions ++ [' ', '=', ' '] ++ opts))).headI = kOptions := by
        have hzshape : (' ' :: (kOptions ++ [' ', '=', ' '] ++ opts) : PStr) =
            ([' '] ++ kOptions ++ [' ']) ++ '=' :: (' ' :: opts) := by
          simp [List.append_assoc]
        rw [hzshape, pySplit_append_sep '=' _ _
          (by exact fun x hx =>
            (by decide : ∀ y ∈ ([' '] ++ kOptions ++ [' '] : PStr), y ≠ '=') x hx)]
        simp only [List.headI]
        decide
      rw [hkey]
      constructor
      · rw [mapLookup_cons, if_neg (by decide), mapLookup_cons, if_neg (by decide),
          mapLookup_cons, if_pos rfl]
      · rw [mapLookup_cons, if_neg (by decide), mapLookup_cons, if_pos rfl]
  have hmatch := matchNoteBody_bracketed (noteInner P (natStr c) opts) hnInner
  have hext : extractSettingsFromNotes (noteBody P (natStr c) opts ++ ['\n']) =
      ⟨(pySplit ':' (noteInner P (natStr c) opts)).foldl parseAssignment [],
       some (pySplit ',' (pyJoin ',' P))⟩ := by
    unfold extractSettingsFromNotes
    rw [noteBody, hmatch]
    dsimp only
    rw [hV.1]
    dsimp only
    rw [if_pos hJ]
  rw [hext]
  exact ⟨rfl, hV.2⟩

/-- C1 witness: the round trip at the concrete S2 scenario
(`//depot/`, change 33255, no options). -/
theorem C1_provenance_roundtrip_witness :
    (extractSettingsFromNotes
        (noteBody [("//depot/".toList)] (natStr 33255) [] ++ ['\n'])).depotPaths
        = some (pySplit ',' (pyJoin ',' [("//depot/".toList)])) ∧
    mapLookup (extractSettingsFromNotes
        (noteBody [("//depot/".toList)] (natStr 33255) [] ++ ['\n'])).values
        kChange = some (natStr 33255) :=
  C1_provenance_roundtrip [("//depot/".toList)] 33255 []
    (by decide) (by decide) (by decide)

/-! ## Client-spec filtering: `P4FileReader.filterClientSpec`
(git-p4.py lines 712-732). -/

/-- The include/exclude flag pair accumulated by the loop
`for val in clientSpecDirs` in `filterClientSpec`: a matching entry with
positive signed length sets the include flag, any other matching entry
sets the exclude flag; the loop never resets a flag. -/
def specFlags (path : PStr) : List (PStr × Int) → Bool × Bool → Bool × Bool
  | [], fl => fl
  | val :: rest, fl =>
    specFlags path rest
      (if val.1.isPrefixOf path then
        (if val.2 > 0 then (true, fl.2) else (fl.1, true))
      else fl)

/-- Decision of `filterClientSpec` for a single file path: with a
non-empty spec the file is kept iff `includeFile and not excludeFile`;
with an empty spec every file is kept. -/
def filterClientSpecIncludes (dirs : List (PStr × Int)) (path : PStr) : Bool :=
  if dirs.isEmpty then true
  else (specFlags path dirs (false, false)).1 && !(specFlags path dirs (false, false)).2

/-- First-match-wins semantics as the specification words it: the first
entry (in order) whose depot prefix matches decides by the sign of its
length; with no match the file is kept only when the spec is empty. -/
def firstMatchDecision (dirs : List (PStr × Int)) (path : PStr) : Bool :=
  match dirs.find? (fun val => val.1.isPrefixOf path) with
  | some val => val.2 > 0
  | none => dirs.isEmpty

/-- Entries sorted by descending absolute signed length, as
`getClientSpec` (lines 2224-2225) produces them. -/
def descAbsOrdered : List (PStr × Int) → Bool
  | [] => true
  | [_] => true
  | a :: b :: t => (b.2.natAbs ≤ a.2.natAbs) && descAbsOrdered (b :: t)

theorem specFlags_fst (path : PStr) (dirs : List (PStr × Int)) (i e : Bool) :
    (specFlags path dirs (i, e)).1 =
      (i || dirs.any (fun v => v.1.isPrefixOf path && decide (0 < v.2))) := by
  induction dirs generalizing i e with
  | nil => simp [specFlags]
  | cons v rest ih =>
    simp only [specFlags, List.any_cons]
    by_cases hp : v.1.isPrefixOf path
    · by_cases hs : v.2 > 0
      · simp [hp, hs, ih]
      · simp only [hp, if_true, hs, if_false, ih]
        have : ¬ (0 < v.2) := hs
        simp [this]
    · simp [hp, ih]

theorem specFlags_snd (path : PStr) (dirs : List (PStr × Int)) (i e : Bool) :
    (specFlags path dirs (i, e)).2 =
      (e || dirs.any (fun v => v.1.isPrefixOf path && decide (v.2 ≤ 0))) := by
  induction dirs generalizing i e with
  | nil => simp [specFlags]
  | cons v rest ih =>
    simp only [specFlags, List.any_cons]
    by_cases hp : v.1.isPrefixOf path
    · by_cases hs : v.2 > 0
      · simp only [hp, if_true, hs, ih]
        have : ¬ (v.2 ≤ 0) := by omega
        simp [this]
      · have : v.2 ≤ 0 := by omega
        simp [hp, hs, ih, this]
    · simp [hp, ih]

/-- C2 counterexample: with the spec entries
`[("//depot/a/", 10), ("//depot/", -8)]` (non-empty, sorted by
descending absolute length) and the file `//depot/a/x`, first-match-wins
semantics would include the file (the longer positive entry matches
first), but `filterClientSpec` excludes it: the loop inspects every
entry, the shorter negative entry also matches, and the exclude flag
wins.  So the claimed first-match-wins semantics is false for the code. -/
theorem C2_first_match_counterexample :
    descAbsOrdered [(("//depot/a/").toList, (10 : Int)), (("//depot/").toList, (-8 : Int))] = true ∧
    [(("//depot/a/").toList, (10 : Int)), (("//depot/").toList, (-8 : Int))] ≠ [] ∧
    firstMatchDecision [(("//depot/a/").toList, (10 : Int)), (("//depot/").toList, (-8 : Int))]
      (("//depot/a/x").toList) = true ∧
    filterClientSpecIncludes [(("//depot/a/").toList, (10 : Int)), (("//depot/").toList, (-8 : Int))]
      (("//depot/a/x").toList) = false := by
  refine ⟨by decide, by decide, by decide, by decide⟩

/-- C2 amended: client-spec filtering is not first-match-wins but
all-matches with exclude-wins.  A file is included iff the spec list is
empty, or some matching entry is positive and every matching entry is
positive; in particular a file matching no entry is included exactly
when the spec list is empty. -/
theorem C2_clientspec_filter (dirs : List (PStr × Int)) (path : PStr) :
    filterClientSpecIncludes dirs path = true ↔
      (dirs = [] ∨
        ((∃ v ∈ dirs, v.1.isPrefixOf path = true ∧ 0 < v.2) ∧
         (∀ v ∈ dirs, v.1.isPrefixOf path = true → 0 < v.2))) := by
  unfold filterClientSpecIncludes
  by_cases hd : dirs = []
  · simp [hd]
  · rw [if_neg (by simpa using hd)]
    rw [specFlags_fst, specFlags_snd]
    simp only [Bool.false_or, Bool.and_eq_true, Bool.not_eq_true', List.any_eq_false,
      List.any_eq_true, Bool.and_eq_true, decide_eq_true_eq]
    constructor
    · rintro ⟨⟨v, hv, hpre, hpos⟩, hall⟩
      refine Or.inr ⟨⟨v, hv, hpre, hpos⟩, ?_⟩
      intro w hw hwpre
      have hnot := hall w hw
      by_cases h0 : w.2 ≤ 0
      · exact absurd ⟨hwpre, h0⟩ hnot
      · omega
    · rintro (h | ⟨⟨v, hv, hpre, hpos⟩, hall⟩)
      · exact absurd h hd
      · refine ⟨⟨v, hv, hpre, hpos⟩, ?_⟩
        intro w hw
        by_cases hwpre : w.1.isPrefixOf path
        · have := hall w hw hwpre
          have h2 : ¬ (w.2 ≤ 0) := by omega
          simp [hwpre, h2]
        · simp [hwpre]

/-! ## File entries, merge detection (`P4Sync.isMergeCommit`, lines
1742-1749) and fast-import file modes (`P4Sync.commit` lines 1573-1582,
`P4Helper.isP4Exec` lines 101-107). -/

/-- A changelist file entry as the import pipeline sees it: depot path,
revision, action, depot type, the post-filter target path, and the
content delivered by the file reader. -/
structure FileEntry where
  path : PStr
  rev : PStr
  action : PStr
  type : PStr
  targetPath : PStr
  data : PStr
  deriving Repr, DecidableEq

/-- `P4Sync.merge_actions = ("branch", "integrate")`. -/
def merge_actions : List PStr := [("branch").toList, ("integrate").toList]

/-- `P4Sync.delete_actions = ("delete", "move/delete", "purge")`. -/
def delete_actions : List PStr := [("delete").toList, ("move/delete").toList, ("purge").toList]

/-- Model of `P4Sync.isMergeCommit`: count entries whose action is a
merge action and compare against `len(files) / 2` with Python-2 integer
division. -/
def isMergeCommit (files : List FileEntry) : Bool :=
  decide (files.countP (fun f => merge_actions.contains f.action) > files.length / 2)

/-- Model of the `\+.*x` half of the exec regex: some `+` is followed,
zero or more characters later, by an `x`. -/
def plusThenX : PStr → Bool
  | [] => false
  | c :: rest => (c = '+' && rest.contains 'x') || plusThenX rest

/-- Model of the `^[cku]?x` half of the exec regex: the type starts with
`x`, or with one of `c`, `k`, `u` immediately followed by `x`. -/
def anchoredExec (kind : PStr) : Bool :=
  match kind with
  | [] => false
  | c0 :: rest0 =>
    if c0 = 'x' then true
    else if c0 = 'c' || c0 = 'k' || c0 = 'u' then
      match rest0 with
      | c1 :: _ => c1 = 'x'
      | [] => false
    else false

/-- Model of `P4Helper.isP4Exec`: `re.search(r"(^[cku]?x)|\+.*x", kind)`
succeeds. -/
def isP4Exec (kind : PStr) : Bool := anchoredExec kind || plusThenX kind

/-- Fast-import mode selection in `P4Sync.commit` (lines 1573-1577):
`644` by default, `755` when the type is executable, else `120000` when
the type is exactly `symlink`. -/
def gitFileMode (kind : PStr) : PStr :=
  if isP4Exec kind then ("755").toList
  else if kind = ("symlink").toList then ("120000").toList
  else ("644").toList

/-- C5: merge detection.  `isMergeCommit` returns true iff strictly more
than half of the entries have action `branch` or `integrate`; in
particular it is false for an exact half (2 of 4) and for the empty
list, both instances of the strict inequality. -/
theorem C5_isMergeCommit_majority (files : List FileEntry) :
    isMergeCommit files = true ↔
      2 * files.countP (fun f => decide (f.action = ("branch").toList
          ∨ f.action = ("integrate").toList)) > files.length := by
  unfold isMergeCommit
  have hc : files.countP (fun f => merge_actions.contains f.action)
      = files.countP (fun f => decide (f.action = ("branch").toList
          ∨ f.action = ("integrate").toList)) := by
    apply List.countP_congr
    intro f _
    by_cases h1 : f.action = ("branch").toList <;>
      by_cases h2 : f.action = ("integrate").toList <;>
        simp [merge_actions, h1, h2]
  rw [hc]
  simp only [decide_eq_true_eq]
  omega

/-- C6: file-mode classification.  For every depot type: the emitted
mode is `120000` iff the type is exactly `symlink`; `755` iff the type
is executable in the sense of the `(^[cku]?x)|\+.*x` regex; `644` in
every other case; and the `\+.*x` half holds iff the type contains a `+`
followed (possibly after further characters) by an `x`.  The symlink and
exec cases are disjoint because `symlink` matches neither regex half. -/
theorem C6_file_mode_classification (kind : PStr) :
    (gitFileMode kind = ("120000").toList ↔ kind = ("symlink").toList) ∧
    (gitFileMode kind = ("755").toList ↔ isP4Exec kind = true) ∧
    (gitFileMode kind = ("644").toList ↔
      (kind ≠ ("symlink").toList ∧ isP4Exec kind = false)) ∧
    (plusThenX kind = true ↔ ∃ l₁ l₂ l₃, kind = l₁ ++ '+' :: (l₂ ++ 'x' :: l₃)) := by
  have hsym : isP4Exec (("symlink").toList) = false := by decide
  refine ⟨?_, ?_, ?_, ?_⟩
  · unfold gitFileMode
    by_cases he : isP4Exec kind = true
    · rw [if_pos he]
      constructor
      · intro h; exact absurd h (by decide)
      · intro h; rw [h] at he; exact absurd he (by decide)
    · rw [if_neg he]
      by_cases hs : kind = ("symlink").toList
      · simp [hs]
      · rw [if_neg hs]
        constructor
        · intro h; exact absurd h (by decide)
        · intro h; exact absurd h hs
  · unfold gitFileMode
    by_cases he : isP4Exec kind = true
    · simp [he]
    · rw [if_neg he]
      by_cases hs : kind = ("symlink").toList
      · rw [if_pos hs]
        constructor
        · intro h; exact absurd h (by decide)
        · intro h; exact absurd h he
      · rw [if_neg hs]
        constructor
        · intro h; exact absurd h (by decide)
        · intro h; exact absurd h he
  · unfold gitFileMode
    by_cases he : isP4Exec kind = true
    · rw [if_pos he]
      constructor
      · intro h; exact absurd h (by decide)
      · rintro ⟨-, h2⟩; rw [he] at h2; exact absurd h2 (by simp)
    · rw [if_neg he]
      by_cases hs : kind = ("symlink").toList
      · rw [if_pos hs]
        constructor
        · intro h; exact absurd h (by decide)
        · rintro ⟨h1, -⟩; exact absurd hs h1
      · rw [if_neg hs]
        constructor
        · intro _; exact ⟨hs, by simpa using he⟩
        · intro _; rfl
  · induction kind with
    | nil => simp [plusThenX]
    | cons c rest ih =>
      simp only [plusThenX, Bool.or_eq_true, Bool.and_eq_true, decide_eq_true_eq]
      constructor
      · rintro (⟨hc, hx⟩ | h)
        · subst hc
          rcases List.append_of_mem (List.elem_iff.mp hx) with ⟨s, t, hst⟩
          exact ⟨[], s, t, by simp [hst]⟩
        · rcases ih.mp h with ⟨l₁, l₂, l₃, hl⟩
          exact ⟨c :: l₁, l₂, l₃, by simp [hl]⟩
      · rintro ⟨l₁, l₂, l₃, hl⟩
        cases l₁ with
        | nil =>
          simp at hl
          refine Or.inl ⟨hl.1, ?_⟩
          rw [List.elem_iff, hl.2]
          simp
        | cons a l₁' =>
          simp at hl
          exact Or.inr (ih.mpr ⟨l₁', l₂, l₃, hl.2⟩)

/-! ## Label/tag engine: `P4Sync.commitLabel` (git-p4.py lines
1688-1740) and the tagger construction (lines 1721-1726). -/

/-- Structured fast-import stream records, modelling the byte stream
`P4Sync.commit`, `commitLabel` and their helpers write to `gitStream`. -/
inductive StreamCmd where
  | checkpoint
  | commitRef (ref : PStr)
  | mark (n : Nat)
  | committer (who : PStr)
  | dataStr (content : PStr)
  | fromRef (parent : PStr)
  | mergeMark (n : Nat)
  | mergeRef (commit : PStr)
  | fileModify (mode : PStr) (relPath : PStr) (data : PStr)
  | fileDelete (relPath : PStr)
  | noteModify (srcMark : Nat) (body : PStr)
  | tag (name : PStr)
  | tagger (who : PStr)
  deriving Repr, DecidableEq

/-- `getRefsPrefix` (lines 278-282). -/
def getRefsPrefix (importIntoRemotes : Bool) : PStr :=
  if importIntoRemotes then ("refs/remotes/p4/").toList else ("refs/heads/p4/").toList

/-- Metadata of a depot label (`labelDetails`): name, owner,
description. -/
structure LabelDetails where
  label : PStr
  owner : PStr
  desc : PStr
  deriving Repr, DecidableEq

/-- `self.labels[change] = [labelDetails, labelRevisions]` lookup,
keyed by the newest changelist the label touches. -/
def labelsLookup (labels : List (Nat × LabelDetails × List (PStr × PStr)))
    (change : Nat) : Option (LabelDetails × List (PStr × PStr)) :=
  (labels.find? (fun e => e.1 = change)).map (fun e => e.2)

/-- Python-2 equality between `cleanedFiles` (a list of branch-relative
path strings) and `labelRevisions` (a dict mapping depot paths to
revisions): built-in values of different types never compare equal
under `==` in Python 2, so this comparison is constantly false. -/
def pyEqListDict (_files : List PStr) (_revs : List (PStr × PStr)) : Bool := false

/-- Tagger construction in `commitLabel` (lines 1721-1726): the guard
tests whether the commit author is in the user map, but the map is then
indexed with the label owner (`self.users[owner]`); a missing owner key
raises `KeyError`, modelled as `none`. -/
def commitLabelTagger (users : List (PStr × PStr)) (author owner epoch tz : PStr) :
    Option PStr :=
  if (mapLookup users author).isSome then
    (mapLookup users owner).map (fun u => u ++ [' '] ++ epoch ++ [' '] ++ tz)
  else
    some (owner ++ [' ', '<'] ++ owner ++ ['>', ' '] ++ epoch ++ [' '] ++ tz)

/-- Outcome of one `commitLabel` call. -/
inductive LabelOutcome where
  | noLabel
  | noFilesOnBranch
  | tagged (cmds : List StreamCmd)
  | taggerKeyError
  | warnFilesDiffer
  | warnCountDiffer
  deriving Repr, DecidableEq

/-- The tag name written by `commitLabel`: `tag_<branch>_<label>` under
branch detection, else `tag_<label>`. -/
def labelTagName (detectBranches : Bool) (localBranch label : PStr) : PStr :=
  if detectBranches then ("tag_").toList ++ localBranch ++ '_' :: label
  else ("tag_").toList ++ label

/-- The files of a label that lie on the committed branch: label files
whose branch-relative path starts with the local branch name
(`commitLabel` lines 1699-1703). -/
def labelCleanedFiles (labelFiles : List PStr) (importIntoRemotes : Bool)
    (branch : PStr) : List PStr :=
  labelFiles.filter
    (fun f => (branch.drop (getRefsPrefix importIntoRemotes).length).isPrefixOf f)

/-- Model of `P4Sync.commitLabel` (lines 1688-1740).  `labelFiles` is
the answer of `getFilesForLabel` (a p4 query filtered and stripped of
the depot prefix); `branch` is the full ref the commit went to. -/
def commitLabel (labels : List (Nat × LabelDetails × List (PStr × PStr)))
    (labelFiles : List PStr) (users : List (PStr × PStr))
    (fuzzyTags detectBranches importIntoRemotes : Bool)
    (author epoch tz branch : PStr) (change : Nat) : LabelOutcome :=
  match labelsLookup labels change with
  | none => .noLabel
  | some (labelDetails, labelRevisions) =>
    let localBranch := branch.drop (getRefsPrefix importIntoRemotes).length
    let cleanedFiles := labelCleanedFiles labelFiles importIntoRemotes branch
    if cleanedFiles.isEmpty then .noFilesOnBranch
    else if cleanedFiles.length = labelRevisions.length ∨ fuzzyTags then
      if pyEqListDict cleanedFiles labelRevisions ∨ fuzzyTags then
        match commitLabelTagger users author labelDetails.owner epoch tz with
        | none => .taggerKeyError
        | some tg =>
          .tagged [StreamCmd.tag (labelTagName detectBranches localBranch labelDetails.label),
                   StreamCmd.fromRef branch,
                   StreamCmd.tagger tg,
                   StreamCmd.dataStr labelDetails.desc]
      else .warnFilesDiffer
    else .warnCountDiffer

/-- C3 counterexample: a label on change 42 with exactly one file, which
lies on the committed branch, so the count of label files on the branch
equals the label's full file count; `fuzzyTags` is off.  The claim says
a tag is emitted, but `commitLabel` prints the files-do-not-match
warning and emits no tag: the inner guard compares the list of
branch-relative path strings against the label's depot-path-to-revision
dict, and in Python 2 a list never equals a dict. -/
theorem C3_label_tagging_counterexample :
    (labelCleanedFiles [("main/a").toList] true (("refs/remotes/p4/main").toList)).length
        = [((("//depot/main/a").toList, ("1").toList))].length ∧
    commitLabel
      [(42, ⟨("L").toList, ("bob").toList, ("d").toList⟩,
        [((("//depot/main/a").toList, ("1").toList))])]
      [("main/a").toList] [] false false true
      (("alice").toList) (("0").toList) (("+0000").toList)
      (("refs/remotes/p4/main").toList) 42
      = LabelOutcome.warnFilesDiffer := by
  exact ⟨by decide, by decide⟩

/-- C3 amended: after the commit on a changelist carrying a label, a
fast-import tag record (named `tag_<branch>_<label>` under branch
detection, else `tag_<label>`) is emitted iff `fuzzyTags` is enabled, at
least one of the label's files lies on the committed branch, and the
tagger construction succeeds; without `fuzzyTags` no tag is ever
emitted, because the branch-relative file list is compared against the
label's revision dict and that comparison never succeeds: a
files-do-not-match warning is printed when the file count matches the
label's full count, a count-mismatch warning when it differs, and
nothing at all when no label file lies on the branch. -/
theorem C3_label_tagging_amended
    (labels : List (Nat × LabelDetails × List (PStr × PStr)))
    (labelFiles : List PStr) (users : List (PStr × PStr))
    (fuzzyTags detectBranches importIntoRemotes : Bool)
    (author epoch tz branch : PStr) (change : Nat)
    (ld : LabelDetails) (revs : List (PStr × PStr))
    (hl : labelsLookup labels change = some (ld, revs)) :
    (labelCleanedFiles labelFiles importIntoRemotes branch = [] →
      commitLabel labels labelFiles users fuzzyTags detectBranches importIntoRemotes
        author epoch tz branch change = LabelOutcome.noFilesOnBranch) ∧
    (labelCleanedFiles labelFiles importIntoRemotes branch ≠ [] → fuzzyTags = false →
      commitLabel labels labelFiles users fuzzyTags detectBranches importIntoRemotes
        author epoch tz branch change =
        (if (labelCleanedFiles labelFiles importIntoRemotes branch).length = revs.length
         then LabelOutcome.warnFilesDiffer else LabelOutcome.warnCountDiffer)) ∧
    (labelCleanedFiles labelFiles importIntoRemotes branch ≠ [] → fuzzyTags = true →
      commitLabel labels labelFiles users fuzzyTags detectBranches importIntoRemotes
        author epoch tz branch change =
        (match commitLabelTagger users author ld.owner epoch tz with
         | none => LabelOutcome.taggerKeyError
         | some tg => LabelOutcome.tagged
             [StreamCmd.tag (labelTagName detectBranches
                 (branch.drop (getRefsPrefix importIntoRemotes).length) ld.label),
              StreamCmd.fromRef branch,
              StreamCmd.tagger tg,
              StreamCmd.dataStr ld.desc])) := by
  unfold commitLabel
  rw [hl]
  dsimp only
  refine ⟨?_, ?_, ?_⟩
  · intro hc
    rw [if_pos (by simp [hc])]
  · intro hc hf
    subst hf
    rw [if_neg (by simpa using hc)]
    by_cases hlen : (labelCleanedFiles labelFiles importIntoRemotes branch).length
        = revs.length
    · rw [if_pos (Or.inl hlen), if_neg (by simp [pyEqListDict]), if_pos hlen]
    · rw [if_neg (by simpa using hlen), if_neg hlen]
  · intro hc hf
    subst hf
    rw [if_neg (by simpa using hc), if_pos (Or.inr rfl), if_pos (Or.inr rfl)]

/-- C3 witness: with `fuzzyTags` on, one label file on the branch, and
the author absent from the user map (so the tagger falls back to the
owner), the amended theorem yields the emitted tag record at a concrete
input. -/
theorem C3_label_tagging_witness :
    commitLabel
      [(42, ⟨("L").toList, ("bob").toList, ("d").toList⟩,
        [((("//depot/main/a").toList, ("1").toList))])]
      [("main/a").toList] [] true false true
      (("alice").toList) (("0").toList) (("+0000").toList)
      (("refs/remotes/p4/main").toList) 42
      = LabelOutcome.tagged
          [StreamCmd.tag (labelTagName false
              ((("refs/remotes/p4/main").toList).drop (getRefsPrefix true).length)
              (("L").toList)),
           StreamCmd.fromRef (("refs/remotes/p4/main").toList),
           StreamCmd.tagger (commitLabelTagger [] (("alice").toList) (("bob").toList)
              (("0").toList) (("+0000").toList)).iget,
           StreamCmd.dataStr (("d").toList)] := by
  have h := (C3_label_tagging_amended
    [(42, ⟨("L").toList, ("bob").toList, ("d").toList⟩,
      [((("//depot/main/a").toList, ("1").toList))])]
    [("main/a").toList] [] true false true
    (("alice").toList) (("0").toList) (("+0000").toList)
    (("refs/remotes/p4/main").toList) 42
    ⟨("L").toList, ("bob").toList, ("d").toList⟩
    [((("//depot/main/a").toList, ("1").toList))]
    (by decide)).2.2 (by decide) rfl
  rw [h]
  decide

/-- C10 counterexample: a label whose owner (`bob`) is absent from the
user map while the commit author (`alice`) is present makes the tagger
construction fail (`users[owner]` raises `KeyError`, modelled as
`none`), contradicting the claim that the construction cannot fail in
exactly this situation. -/
theorem C10_tagger_counterexample :
    commitLabelTagger [((("alice").toList, ("<a@b>").toList))] (("alice").toList)
      (("bob").toList) (("0").toList) (("+0000").toList) = none := by
  decide

/-- C10 amended: the tagger construction fails precisely when the
author is present in the user map but the label owner is not; when the
author is absent it falls back to a tagger built from the owner name,
and when both are present the tagger comes from the map entry under the
owner's key. -/
theorem C10_tagger_totality (users : List (PStr × PStr))
    (author owner epoch tz : PStr) :
    (commitLabelTagger users author owner epoch tz = none ↔
      (mapLookup users author).isSome = true ∧ mapLookup users owner = none) ∧
    (mapLookup users author = none →
      commitLabelTagger users author owner epoch tz
        = some (owner ++ [' ', '<'] ++ owner ++ ['>', ' '] ++ epoch ++ [' '] ++ tz)) ∧
    (∀ u, mapLookup users owner = some u → (mapLookup users author).isSome = true →
      commitLabelTagger users author owner epoch tz
        = some (u ++ [' '] ++ epoch ++ [' '] ++ tz)) := by
  unfold commitLabelTagger
  refine ⟨?_, ?_, ?_⟩
  · by_cases ha : (mapLookup users author).isSome = true
    · rw [if_pos ha]
      cases ho : mapLookup users owner with
      | none => simp [ha]
      | some u => simp [ha]
    · rw [if_neg ha]
      constructor
      · intro h; exact absurd h (by simp)
      · rintro ⟨h1, -⟩; exact absurd h1 ha
  · intro ha
    rw [if_neg (by simp [ha])]
  · intro u hu ha
    rw [if_pos ha, hu]
    rfl

/-- C10 witness: at a concrete map containing only the author, the
fallback branch of the amended theorem applies (owner absent, author
absent too), and the map branch applies when both are present. -/
theorem C10_tagger_totality_witness :
    commitLabelTagger [((("alice").toList, ("<a@b>").toList))] (("bob").toList)
      (("carol").toList) (("0").toList) (("+0000").toList)
      = some ((("carol").toList) ++ [' ', '<'] ++ (("carol").toList) ++ ['>', ' ']
          ++ (("0").toList) ++ [' '] ++ (("+0000").toList)) :=
  (C10_tagger_totality [((("alice").toList, ("<a@b>").toList))] (("bob").toList)
    (("carol").toList) (("0").toList) (("+0000").toList)).2.1 (by decide)

/-! ## Incremental resume: `P4Sync.CalculateLastImportedP4ChangeList`
(git-p4.py lines 2227-2260). -/

/-- Lexicographic string comparison, modelling Python `sorted` order on
byte strings. -/
def pstrLeb : PStr → PStr → Bool
  | [], _ => true
  | _ :: _, [] => false
  | a :: as, b :: bs => if a = b then pstrLeb as bs else decide (a < b)

/-- Insertion step for `pySorted`. -/
def pyInsertSorted (x : PStr) : List PStr → List PStr
  | [] => [x]
  | y :: ys => if pstrLeb x y then x :: y :: ys else y :: pyInsertSorted x ys

/-- Python `sorted` on a list of strings. -/
def pySorted : List PStr → List PStr
  | [] => []
  | x :: xs => pyInsertSorted x (pySorted xs)

/-- Length of the common prefix of two strings, as found by the inner
loop of `CalculateLastImportedP4ChangeList` (lines 2246-2252): scan up
to the shorter length, stop one before the first mismatch. -/
def commonPrefixLen : PStr → PStr → Nat
  | a :: as, b :: bs => if a = b then 1 + commonPrefixLen as bs else 0
  | _, _ => 0

/-- `cur[:i+1]` after the inner loop: the common prefix taken from
`cur`.  When an operand is empty the Python loop body never runs and
`cur[:i+1]` reads a stale or unbound loop variable; the model adopts
the empty prefix, the value the surrounding fold is computing. -/
def pyCommonPrefix (prev cur : PStr) : PStr := cur.take (commonPrefixLen prev cur)

/-- Specification-side elementwise common prefix of two strings. -/
def commonPrefix : PStr → PStr → PStr
  | a :: as, b :: bs => if a = b then a :: commonPrefix as bs else []
  | _, _ => []

/-- Accumulator of the fold over import branches: the running maximum
`p4Change` and the running `previousDepotPaths`. -/
structure CalcState where
  p4Change : Nat
  previousDepotPaths : List PStr
  deriving Repr, DecidableEq

/-- One iteration of the branch loop (lines 2229-2254): a branch whose
tip note lacks `depot-paths` or `change` is skipped; otherwise take
`int(change) + 1` into the max and fold the sorted depot paths into the
elementwise common prefix. -/
def calcStep (st : CalcState) (settings : Option (List PStr × Nat)) : CalcState :=
  match settings with
  | none => st
  | some (dp, c) =>
    let change := c + 1
    let newMax := max st.p4Change change
    let depotPaths := pySorted dp
    if st.previousDepotPaths = [] then ⟨newMax, depotPaths⟩
    else ⟨newMax, (st.previousDepotPaths.zip depotPaths).map
        (fun pc => pyCommonPrefix pc.1 pc.2)⟩

/-- Result of `CalculateLastImportedP4ChangeList`: the folded state
plus, when `p4Change > 0`, the new `depotPaths` and the number after
`@` in `changeRange = "@%s,#head" % p4Change`. -/
structure CalcResult where
  p4Change : Nat
  previousDepotPaths : List PStr
  depotPaths : Option (List PStr)
  changeRangeLow : Option Nat
  deriving Repr, DecidableEq

/-- Model of `CalculateLastImportedP4ChangeList` (lines 2227-2260).
The argument is the list of per-branch settings read from the tips'
provenance notes: `none` for a branch whose note lacks the keys,
`some (depotPaths, change)` otherwise (with `change` already through
`int`). -/
def CalculateLastImportedP4ChangeList
    (branchSettings : List (Option (List PStr × Nat))) : CalcResult :=
  let st := branchSettings.foldl calcStep ⟨0, []⟩
  if st.p4Change > 0 then
    ⟨st.p4Change, st.previousDepotPaths,
     some (pySorted st.previousDepotPaths), some st.p4Change⟩
  else ⟨st.p4Change, st.previousDepotPaths, none, none⟩

theorem pyCommonPrefix_eq_commonPrefix (prev cur : PStr) :
    pyCommonPrefix prev cur = commonPrefix prev cur := by
  unfold pyCommonPrefix
  induction prev generalizing cur with
  | nil => cases cur <;> simp [commonPrefixLen, commonPrefix]
  | cons a as ih =>
    cases cur with
    | nil => simp [commonPrefixLen, commonPrefix]
    | cons b bs =>
      by_cases hab : a = b
      · subst hab
        simp only [commonPrefixLen, commonPrefix, eq_self_iff_true, if_true]
        rw [Nat.add_comm, List.take_succ_cons, ih bs]
      · have hba : ¬ a = b := hab
        simp [commonPrefixLen, commonPrefix, hba]

/-- Specification-side fold: maximum change over the branches that
carry settings. -/
def maxRecordedChange (branchSettings : List (Option (List PStr × Nat))) : Nat :=
  (branchSettings.filterMap id).foldl (fun m e => max m e.2) 0

/-- Specification-side fold: elementwise common prefixes of all
observed (sorted) depot-paths lists. -/
def elementwiseCommonPaths
    (branchSettings : List (Option (List PStr × Nat))) : List PStr :=
  (branchSettings.filterMap id).foldl
    (fun acc e =>
      if acc = [] then pySorted e.1
      else (acc.zip (pySorted e.1)).map (fun pc => commonPrefix pc.1 pc.2)) []

theorem calc_fold_p4Change (bs : List (Option (List PStr × Nat))) (st : CalcState) :
    (bs.foldl calcStep st).p4Change =
      (bs.filterMap id).foldl (fun m e => max m (e.2 + 1)) st.p4Change := by
  induction bs generalizing st with
  | nil => rfl
  | cons b rest ih =>
    cases b with
    | none => simp [List.foldl_cons, calcStep, ih]
    | some e =>
      simp only [List.foldl_cons, List.filterMap_cons, calcStep, id_eq]
      by_cases hp : st.previousDepotPaths = []
      · rw [if_pos hp, ih]
      · rw [if_neg hp, ih]

theorem calc_fold_paths (bs : List (Option (List PStr × Nat))) (st : CalcState) :
    (bs.foldl calcStep st).previousDepotPaths =
      (bs.filterMap id).foldl
        (fun acc e =>
          if acc = [] then pySorted e.1
          else (acc.zip (pySorted e.1)).map (fun pc => commonPrefix pc.1 pc.2))
        st.previousDepotPaths := by
  induction bs generalizing st with
  | nil => rfl
  | cons b rest ih =>
    cases b with
    | none => simp [List.foldl_cons, calcStep, ih]
    | some e =>
      simp only [List.foldl_cons, List.filterMap_cons, calcStep, id_eq]
      by_cases hp : st.previousDepotPaths = []
      · rw [if_pos hp, ih]
        simp only [List.foldl_cons]
        congr 1
        simp [hp]
      · rw [if_neg hp, ih]
        simp only [List.foldl_cons]
        congr 1
        rw [if_neg (by simpa using hp)]
        apply List.map_congr_left
        intro pc _
        exact pyCommonPrefix_eq_commonPrefix pc.1 pc.2

theorem maxfold_succ (l : List (List PStr × Nat)) (a : Nat) :
    l.foldl (fun m e => max m (e.2 + 1)) (a + 1) =
      l.foldl (fun m e => max m e.2) a + 1 := by
  induction l generalizing a with
  | nil => rfl
  | cons e rest ih =>
    simp only [List.foldl_cons]
    have hmx : (a + 1) ⊔ (e.2 + 1) = (a ⊔ e.2) + 1 := by omega
    rw [hmx, ih]

/-- C4 counterexample: a single import branch whose note records change
`33255`.  The claim says the lower bound of the resulting changelist
range equals the maximum recorded change, `33255`; the code adds one to
each change before taking the maximum, so `changeRange` is
`@33256,#head` and the number after `@` is `33256`. -/
theorem C4_resume_counterexample :
    (CalculateLastImportedP4ChangeList [some ([("//depot/").toList], 33255)]).changeRangeLow
        = some 33256 ∧
    (CalculateLastImportedP4ChangeList [some ([("//depot/").toList], 33255)]).changeRangeLow
        ≠ some 33255 := by
  exact ⟨by decide, by decide⟩

/-- C4 amended: when at least one import branch carries a provenance
note, the depot paths for the next import are the elementwise common
string prefixes of all observed depot-paths lists (sorted), and the
lower bound of the resulting changelist range — the number after `@` in
`changeRange` — equals the maximum change recorded across those
branches' notes **plus one** (the code folds `int(change) + 1` into the
maximum). -/
theorem C4_resume_calculation (bs : List (Option (List PStr × Nat)))
    (hne : ∃ x ∈ bs, x.isSome = true) :
    (CalculateLastImportedP4ChangeList bs).changeRangeLow
        = some (maxRecordedChange bs + 1) ∧
    (CalculateLastImportedP4ChangeList bs).depotPaths
        = some (pySorted (elementwiseCommonPaths bs)) := by
  have hfm : bs.filterMap id ≠ [] := by
    rcases hne with ⟨x, hx, hs⟩
    cases x with
    | none => simp at hs
    | some e =>
      intro hemp
      have : (some e).isSome = true → e ∈ bs.filterMap id := by
        intro _
        exact List.mem_filterMap.mpr ⟨some e, hx, rfl⟩
      have hmem := this rfl
      rw [hemp] at hmem
      simp at hmem
  have hp4 : (bs.foldl calcStep ⟨0, []⟩).p4Change = maxRecordedChange bs + 1 := by
    rw [calc_fold_p4Change]
    unfold maxRecordedChange
    cases hf : bs.filterMap id with
    | nil => exact absurd hf hfm
    | cons e rest =>
      simp only [List.foldl_cons]
      have h0 : max (0 : Nat) (e.2 + 1) = e.2 + 1 := by omega
      have h0' : max (0 : Nat) e.2 = e.2 := by omega
      rw [h0, h0', maxfold_succ]
  have hpos : (bs.foldl calcStep ⟨0, []⟩).p4Change > 0 := by omega
  constructor
  · unfold CalculateLastImportedP4ChangeList
    dsimp only
    rw [if_pos hpos]
    simp [hp4]
  · unfold CalculateLastImportedP4ChangeList
    dsimp only
    rw [if_pos hpos]
    simp only [CalcResult.mk.injEq]
    rw [calc_fold_paths]
    unfold elementwiseCommonPaths
    rfl

/-- C4 witness: the amended theorem at the single-branch input with
change 33255 and depot path `//depot/`. -/
theorem C4_resume_calculation_witness :
    (CalculateLastImportedP4ChangeList [some ([("//depot/").toList], 33255)]).changeRangeLow
        = some (maxRecordedChange [some ([("//depot/").toList], 33255)] + 1) ∧
    (CalculateLastImportedP4ChangeList [some ([("//depot/").toList], 33255)]).depotPaths
        = some (pySorted (elementwiseCommonPaths [some ([("//depot/").toList], 33255)])) :=
  C4_resume_calculation [some ([("//depot/").toList], 33255)]
    ⟨some ([("//depot/").toList], 33255), by simp, rfl⟩

/-! ## Submit engine: `P4Submit.getChangedFiles` (git-p4.py lines
1056-1086), `integrateFile` (951-955, 248-253) and `revertCommit`
(968-973). -/

/-- Python `set.add`: insert if absent. -/
def setAdd (s : List PStr) (x : PStr) : List PStr :=
  if x ∈ s then s else s ++ [x]

/-- Python `set.remove` guarded by a membership test (as the code always
does): drop the element. -/
def setRemove (s : List PStr) (x : PStr) : List PStr :=
  s.filter (fun y => y ≠ x)

/-- The four per-commit collections the submit engine accumulates. -/
structure SubmitSets where
  filesToAdd : List PStr
  filesToDelete : List PStr
  editedFiles : List PStr
  filesToChangeExecBit : List (PStr × PStr)
  deriving Repr, DecidableEq

/-- One parsed `git diff-tree` entry. -/
structure DiffTreeEntry where
  src_mode : PStr
  dst_mode : PStr
  status : Char
  src : PStr
  dst : PStr
  deriving Repr, DecidableEq

/-- `isModeExec` (lines 383-386): the last three characters of the git
mode are `755`. -/
def isModeExec (mode : PStr) : Bool :=
  decide (mode.drop (mode.length - 3) = ("755").toList)

/-- `isModeExecChanged` (lines 388-389). -/
def isModeExecChanged (src_mode dst_mode : PStr) : Bool :=
  isModeExec src_mode != isModeExec dst_mode

/-- `P4Submit.integrateFile` (lines 951-955): issue the depot integrate
and edit for the destination (external effects), queue an exec-bit
reopen when the mode changed, and return the destination path. -/
def integrateFileStep (st : SubmitSets) (e : DiffTreeEntry) : SubmitSets × PStr :=
  (if isModeExecChanged e.src_mode e.dst_mode
   then { st with filesToChangeExecBit := mapInsert st.filesToChangeExecBit e.dst e.dst_mode }
   else st, e.dst)

/-- One iteration of `getChangedFiles` (lines 1058-1086): dispatch on
the diff status letter; `T`, `U`, `X`, `B` and anything else are fatal
(`die`), modelled as `none`. -/
def getChangedFilesStep (st : SubmitSets) (e : DiffTreeEntry) : Option SubmitSets :=
  if e.status = 'M' then
    some { st with
      filesToChangeExecBit :=
        if isModeExecChanged e.src_mode e.dst_mode
        then mapInsert st.filesToChangeExecBit e.src e.dst_mode
        else st.filesToChangeExecBit,
      editedFiles := setAdd st.editedFiles e.src }
  else if e.status = 'A' then
    some { st with
      filesToAdd := setAdd st.filesToAdd e.src,
      filesToChangeExecBit := mapInsert st.filesToChangeExecBit e.src e.dst_mode,
      filesToDelete := setRemove st.filesToDelete e.src }
  else if e.status = 'D' then
    some { st with
      filesToDelete := setAdd st.filesToDelete e.src,
      filesToAdd := setRemove st.filesToAdd e.src,
      editedFiles := setRemove st.editedFiles e.src }
  else if e.status = 'R' then
    let step := integrateFileStep st e
    some { step.1 with
      editedFiles := setAdd step.1.editedFiles step.2,
      filesToDelete := setAdd step.1.filesToDelete e.src }
  else if e.status = 'C' then
    let step := integrateFileStep st e
    some { step.1 with editedFiles := setAdd step.1.editedFiles step.2 }
  else none

/-- `getChangedFiles` over a whole diff, starting from the empty
collections `addFilesToChangelist` initialises (lines 1047-1052). -/
def getChangedFiles (entries : List DiffTreeEntry) : Option SubmitSets :=
  entries.foldlM getChangedFilesStep ⟨[], [], [], []⟩

/-- `revertCommit` (lines 968-973): returns the paths it issues a depot
`revert` for (first component, in order) and the paths it removes from
disk (second component). -/
def revertCommit (st : SubmitSets) : List PStr × List PStr :=
  (st.editedFiles ++ st.filesToAdd, st.filesToAdd)

/-- C9 counterexample: a diff consisting of one `D` entry leaves
`a.txt` scheduled for delete, but `revertCommit` reverts only the
edited and added files, so no revert is issued for `a.txt` — against
the claim that every file opened for edit, add, integrate, or delete is
reverted. -/
theorem C9_revert_counterexample :
    getChangedFiles [⟨("100644").toList, ("000000").toList, 'D', ("a.txt").toList, []⟩]
      = some ⟨[], [("a.txt").toList], [], []⟩ ∧
    ("a.txt").toList ∈ (⟨[], [("a.txt").toList], [], []⟩ : SubmitSets).filesToDelete ∧
    ("a.txt").toList ∉ (revertCommit ⟨[], [("a.txt").toList], [], []⟩).1 := by
  exact ⟨by decide, by decide, by decide⟩

/-- C9 amended: after `getChangedFiles` classifies a diff, an aborted
submit reverts exactly the edited files (which include integrate
destinations still in the edited set) and the added files, and removes
exactly the added files from disk; files scheduled for delete are not
reverted. -/
theorem C9_revert_on_failure (entries : List DiffTreeEntry) (st : SubmitSets)
    (_h : getChangedFiles entries = some st) :
    (∀ f, f ∈ (revertCommit st).1 ↔ (f ∈ st.editedFiles ∨ f ∈ st.filesToAdd)) ∧
    (revertCommit st).2 = st.filesToAdd := by
  unfold revertCommit
  exact ⟨fun f => by simp, rfl⟩

/-- C9 witness: a single `M` entry yields `editedFiles = [m.txt]`, and
the amended theorem gives that `m.txt` is reverted. -/
theorem C9_revert_on_failure_witness :
    ("m.txt").toList ∈ (revertCommit ⟨[], [], [("m.txt").toList], []⟩).1 :=
  ((C9_revert_on_failure
      [⟨("100644").toList, ("100644").toList, 'M', ("m.txt").toList, []⟩]
      ⟨[], [], [("m.txt").toList], []⟩ (by decide)).1
    (("m.txt").toList)).mpr (Or.inl (by decide))

/-! ## Keyword masking (git-p4.py lines 810-813 and 1435-1438):
`re.sub(r'(?i)\$(Id|Header):[^$]*\$', r'$\1$', text)` for `+ko` types and
`re.sub(r'\$(Id|Header|Author|Date|DateTime|Change|File|Revision):[^$\n]*\$',
r'$\1$', text)` for `+k` types.  The substitution engine below models
Python `re.sub`: scan left to right, at each `$` try the alternation
(with backtracking across alternatives, so `Date` failing its `:` lets
`DateTime` match), greedily consume the value up to the next `$`
(excluding newlines in the `+k` variant), replace the whole match by
`$<keyword-as-matched>$`, and resume after it. -/

/-- Match a keyword against a prefix of the input, case-insensitively
when `ci` is set; returns the matched characters (original casing) and
the rest. -/
def matchKeyCased (ci : Bool) : PStr → PStr → Option (PStr × PStr)
  | [], s => some ([], s)
  | _ :: _, [] => none
  | k :: ks, c :: cs =>
    if (if ci then k.toLower = c.toLower else k = c) then
      match matchKeyCased ci ks cs with
      | some x => some (c :: x.1, x.2)
      | none => none
    else none

/-- Consume `[^$]*\$` (or `[^$\n]*\$` when `nl` is set): the greedy run
up to the first `$`, which must exist (and must come before any newline
in the `nl` variant); returns the run and the text after the closing
`$`. -/
def spanValue (nl : Bool) : PStr → Option (PStr × PStr)
  | [] => none
  | c :: cs =>
    if c = '$' then some ([], cs)
    else if nl && c = '\n' then none
    else
      match spanValue nl cs with
      | some x => some (c :: x.1, x.2)
      | none => none

/-- Try the keyword alternation in order at the position just after a
`$`: a keyword matches only if it is followed by `:` and a well-formed
value run; otherwise the next alternative is tried (regex
backtracking). Returns the matched keyword text and the text after the
closing `$`. -/
def tryKeys (ci nl : Bool) : List PStr → PStr → Option (PStr × PStr)
  | [], _ => none
  | k :: ks, s =>
    match matchKeyCased ci k s with
    | some x =>
      if x.2 ≠ [] ∧ x.2.headI = ':' then
        match spanValue nl x.2.tail with
        | some y => some (x.1, y.2)
        | none => tryKeys ci nl ks s
      else tryKeys ci nl ks s
    | none => tryKeys ci nl ks s

theorem matchKeyCased_length (ci : Bool) (k : PStr) :
    ∀ (s kc rest : PStr), matchKeyCased ci k s = some (kc, rest) →
      rest.length ≤ s.length := by
  induction k with
  | nil =>
    intro s kc rest h
    simp [matchKeyCased] at h
    simp [h.2]
  | cons a as ih =>
    intro s kc rest h
    cases s with
    | nil => simp [matchKeyCased] at h
    | cons c cs =>
      simp only [matchKeyCased] at h
      by_cases hcond : (if ci then a.toLower = c.toLower else a = c)
      · rw [if_pos hcond] at h
        cases hx : matchKeyCased ci as cs with
        | none => rw [hx] at h; simp at h
        | some x =>
          rw [hx] at h
          simp at h
          have hlen := ih cs x.1 x.2 (by rw [hx])
          rw [← h.2]
          simp only [List.length_cons]
          omega
      · rw [if_neg hcond] at h
        simp at h

theorem spanValue_length (nl : Bool) :
    ∀ (s run tail : PStr), spanValue nl s = some (run, tail) →
      tail.length ≤ s.length := by
  intro s
  induction s with
  | nil => intro run tail h; simp [spanValue] at h
  | cons c cs ih =>
    intro run tail h
    simp only [spanValue] at h
    by_cases h1 : c = '$'
    · rw [if_pos h1] at h
      simp at h
      rw [← h.2]
      simp
    · rw [if_neg h1] at h
      by_cases h2 : (nl && c = '\n') = true
      · rw [if_pos h2] at h
        simp at h
      · rw [if_neg h2] at h
        cases hx : spanValue nl cs with
        | none => rw [hx] at h; simp at h
        | some x =>
          rw [hx] at h
          simp at h
          have := ih x.1 x.2 (by rw [hx])
          rw [← h.2]
          simp only [List.length_cons]
          omega

theorem tryKeys_length (ci nl : Bool) (keys : List PStr) :
    ∀ (s kc tail : PStr), tryKeys ci nl keys s = some (kc, tail) →
      tail.length ≤ s.length := by
  induction keys with
  | nil => intro s kc tail h; simp [tryKeys] at h
  | cons k ks ih =>
    intro s kc tail h
    simp only [tryKeys] at h
    split at h
    next x hm =>
      split at h
      next hcond =>
        split at h
        next y hsp =>
          simp at h
          have h1 := matchKeyCased_length ci k s x.1 x.2 (by rw [hm])
          have h2 := spanValue_length nl x.2.tail y.1 y.2 (by rw [hsp])
          have h3 : x.2.tail.length + 1 = x.2.length := by
            cases hx : x.2 with
            | nil => exact absurd hx hcond.1
            | cons c r2 => simp
          rw [← h.2]
          omega
        next hsp => exact ih s kc tail h
      next hcond => exact ih s kc tail h
    next hm => exact ih s kc tail h

/-- The `re.sub` scan: copy characters until a `$` opens a keyword
match; replace a successful match `$K:value$` by `$K$` (keeping the
casing of the matched keyword) and resume after it, or copy the `$` and
resume at the next character. -/
def maskSub (ci nl : Bool) (keys : List PStr) : PStr → PStr
  | [] => []
  | c :: rest =>
    if c = '$' then
      if h : (tryKeys ci nl keys rest).isSome then
        let x := (tryKeys ci nl keys rest).get h
        '$' :: (x.1 ++ '$' :: maskSub ci nl keys x.2)
      else c :: maskSub ci nl keys rest
    else c :: maskSub ci nl keys rest
termination_by s => s.length
decreasing_by
  · simp only [List.length_cons]
    have hx := tryKeys_length ci nl keys rest
      ((tryKeys ci nl keys rest).get h).1 ((tryKeys ci nl keys rest).get h).2
      (by simp)
    omega
  · simp
  · simp

/-- Keyword `Id`. -/
def kwId : PStr := ['I', 'd']

/-- Keyword `Header`. -/
def kwHeader : PStr := ['H', 'e', 'a', 'd', 'e', 'r']

/-- Keyword `Author`. -/
def kwAuthor : PStr := ['A', 'u', 't', 'h', 'o', 'r']

/-- Keyword `Date`. -/
def kwDate : PStr := ['D', 'a', 't', 'e']

/-- Keyword `DateTime`. -/
def kwDateTime : PStr := ['D', 'a', 't', 'e', 'T', 'i', 'm', 'e']

/-- Keyword `Change`. -/
def kwChange : PStr := ['C', 'h', 'a', 'n', 'g', 'e']

/-- Keyword `File`. -/
def kwFile : PStr := ['F', 'i', 'l', 'e']

/-- Keyword `Revision`. -/
def kwRevision : PStr := ['R', 'e', 'v', 'i', 's', 'i', 'o', 'n']

/-- The `+ko` alternation `Id|Header`. -/
def koKeys : List PStr := [kwId, kwHeader]

/-- The `+k` alternation
`Id|Header|Author|Date|DateTime|Change|File|Revision`. -/
def kKeys : List PStr :=
  [kwId, kwHeader, kwAuthor, kwDate, kwDateTime, kwChange, kwFile, kwRevision]

/-- Types handled by the `+ko` branch (line 810 / 1435). -/
def koTypes : List PStr :=
  [("text+ko").toList, ("unicode+ko").toList, ("binary+ko").toList, ("utf16+ko").toList]

/-- Types handled by the `+k` branch (line 812 / 1437), including the
legacy `ktext` and `kxtext`. -/
def kTypes : List PStr :=
  [("text+k").toList, ("ktext").toList, ("kxtext").toList,
   ("unicode+k").toList, ("binary+k").toList, ("utf16+k").toList]

/-- The keyword-masking dispatch applied to fetched file content in
`P4FileReader.next` and `P4Sync.readP4Files`. -/
def applyKeywordMask (type text : PStr) : PStr :=
  if koTypes.contains type then maskSub true false koKeys text
  else if kTypes.contains type then maskSub false true kKeys text
  else text

/-- A string is a casing variant of a keyword: same length, same
letters up to case.  This is what `(?i)` matches. -/
def caseVariant (k kc : PStr) : Prop :=
  List.Forall₂ (fun a b => a.toLower = b.toLower) k kc

theorem spanValue_complete (nl : Bool) (m b : PStr)
    (hm : ∀ c ∈ m, c ≠ '$' ∧ (nl = true → c ≠ '\n')) :
    spanValue nl (m ++ '$' :: b) = some (m, b) := by
  induction m with
  | nil => simp [spanValue]
  | cons c cs ih =>
    have hc := hm c (by simp)
    rw [List.cons_append]
    simp only [spanValue]
    rw [if_neg hc.1]
    have hnl : (nl && c = '\n') = false := by
      cases nl with
      | false => simp
      | true => simp [hc.2 rfl]
    rw [hnl]
    simp only [Bool.false_eq_true, if_false]
    rw [ih (fun x hx => hm x (by simp [hx]))]

theorem matchKeyCased_exact (k rest : PStr) :
    matchKeyCased false k (k ++ rest) = some (k, rest) := by
  induction k with
  | nil => simp [matchKeyCased]
  | cons a as ih =>
    rw [List.cons_append]
    simp only [matchKeyCased]
    rw [if_pos (by simp)]
    rw [ih]

theorem matchKeyCased_ci_exact (k kc : PStr) (h : caseVariant k kc) (rest : PStr) :
    matchKeyCased true k (kc ++ rest) = some (kc, rest) := by
  induction h with
  | nil => simp [matchKeyCased]
  | cons hab htail ih =>
    rw [List.cons_append]
    simp only [matchKeyCased]
    rw [if_pos (by simp [hab])]
    rw [ih]

theorem tryKeys_cons_fail_none (ci nl : Bool) (k : PStr) (ks : List PStr) (s : PStr)
    (h : matchKeyCased ci k s = none) :
    tryKeys ci nl (k :: ks) s = tryKeys ci nl ks s := by
  simp only [tryKeys]
  rw [h]

theorem tryKeys_cons_hit (ci nl : Bool) (k : PStr) (ks : List PStr) (s kc r2 m b : PStr)
    (h : matchKeyCased ci k s = some (kc, ':' :: r2))
    (hspan : spanValue nl r2 = some (m, b)) :
    tryKeys ci nl (k :: ks) s = some (kc, b) := by
  simp only [tryKeys]
  rw [h]
  dsimp only
  rw [if_pos (by refine ⟨by simp, by simp⟩)]
  rw [List.tail_cons, hspan]

theorem maskSub_nil (ci nl : Bool) (keys : List PStr) :
    maskSub ci nl keys [] = [] := by
  rw [maskSub]

theorem maskSub_cons_no_dollar (ci nl : Bool) (keys : List PStr) (c : Char)
    (rest : PStr) (hc : c ≠ '$') :
    maskSub ci nl keys (c :: rest) = c :: maskSub ci nl keys rest := by
  rw [maskSub, if_neg hc]

theorem maskSub_dollar_hit (ci nl : Bool) (keys : List PStr) (rest kc tail : PStr)
    (h : tryKeys ci nl keys rest = some (kc, tail)) :
    maskSub ci nl keys ('$' :: rest) = '$' :: (kc ++ '$' :: maskSub ci nl keys tail) := by
  rw [maskSub, if_pos rfl]
  rw [dif_pos (by simp [h])]
  simp [h]

theorem maskSub_dollar_miss (ci nl : Bool) (keys : List PStr) (rest : PStr)
    (h : tryKeys ci nl keys rest = none) :
    maskSub ci nl keys ('$' :: rest) = '$' :: maskSub ci nl keys rest := by
  rw [maskSub, if_pos rfl]
  rw [dif_neg (by simp [h])]

theorem maskSub_append_no_dollar (ci nl : Bool) (keys : List PStr) (a s : PStr)
    (ha : '$' ∉ a) :
    maskSub ci nl keys (a ++ s) = a ++ maskSub ci nl keys s := by
  induction a with
  | nil => simp
  | cons c cs ih =>
    have hc : c ≠ '$' := by intro h; exact ha (by simp [h])
    rw [List.cons_append, maskSub_cons_no_dollar ci nl keys c (cs ++ s) hc,
      ih (fun h => ha (by simp [h]))]
    simp

theorem maskSub_no_dollar (ci nl : Bool) (keys : List PStr) (s : PStr)
    (hs : '$' ∉ s) :
    maskSub ci nl keys s = s := by
  have := maskSub_append_no_dollar ci nl keys s [] hs
  simpa [maskSub_nil] using this

theorem tryKeys_cons_fail_not_colon (ci nl : Bool) (k : PStr) (ks : List PStr)
    (s : PStr) (x : PStr × PStr)
    (h : matchKeyCased ci k s = some x) (hx : ¬(x.2 ≠ [] ∧ x.2.headI = ':')) :
    tryKeys ci nl (k :: ks) s = tryKeys ci nl ks s := by
  simp only [tryKeys]
  rw [h]
  dsimp only
  rw [if_neg hx]

theorem tryKeys_ko (kc m tl : PStr)
    (hkc : caseVariant kwId kc ∨ caseVariant kwHeader kc)
    (hm : '$' ∉ m) :
    tryKeys true false koKeys (kc ++ ':' :: (m ++ '$' :: tl)) = some (kc, tl) := by
  have hspan : spanValue false (m ++ '$' :: tl) = some (m, tl) :=
    spanValue_complete false m tl
      (fun c hc => ⟨fun h => hm (h ▸ hc), fun h => by simp at h⟩)
  rcases hkc with h | h
  · unfold koKeys
    exact tryKeys_cons_hit true false kwId [kwHeader] _ kc (m ++ '$' :: tl) m tl
      (matchKeyCased_ci_exact kwId kc h _) hspan
  · unfold koKeys
    rcases h with _ | @⟨_, c0, _, kc1, hab, htail⟩
    rw [tryKeys_cons_fail_none true false kwId [kwHeader] _ ?hfail]
    case hfail =>
      rw [List.cons_append]
      simp only [matchKeyCased, kwId]
      rw [if_neg ?hne]
      case hne =>
        simp only [if_true]
        rw [← hab]
        decide
    exact tryKeys_cons_hit true false kwHeader [] _ (c0 :: kc1) (m ++ '$' :: tl) m tl
      (matchKeyCased_ci_exact kwHeader (c0 :: kc1) (List.Forall₂.cons hab htail) _)
      hspan

theorem tryKeys_k (kc m tl : PStr) (hkc : kc ∈ kKeys)
    (hm : ∀ c ∈ m, c ≠ '$' ∧ c ≠ '\n') :
    tryKeys false true kKeys (kc ++ ':' :: (m ++ '$' :: tl)) = some (kc, tl) := by
  have hspan : spanValue true (m ++ '$' :: tl) = some (m, tl) :=
    spanValue_complete true m tl (fun c hc => ⟨(hm c hc).1, fun _ => (hm c hc).2⟩)
  fin_cases hkc
  · unfold kKeys
    exact tryKeys_cons_hit _ _ _ _ _ _ _ _ _ (matchKeyCased_exact kwId _) hspan
  · unfold kKeys
    rw [tryKeys_cons_fail_none _ _ _ _ _ (by simp [matchKeyCased, kwId, kwHeader])]
    exact tryKeys_cons_hit _ _ _ _ _ _ _ _ _ (matchKeyCased_exact kwHeader _) hspan
  · unfold kKeys
    rw [tryKeys_cons_fail_none _ _ _ _ _ (by simp [matchKeyCased, kwId, kwAuthor])]
    rw [tryKeys_cons_fail_none _ _ _ _ _ (by simp [matchKeyCased, kwHeader, kwAuthor])]
    exact tryKeys_cons_hit _ _ _ _ _ _ _ _ _ (matchKeyCased_exact kwAuthor _) hspan
  · unfold kKeys
    rw [tryKeys_cons_fail_none _ _ _ _ _ (by simp [matchKeyCased, kwId, kwDate])]
    rw [tryKeys_cons_fail_none _ _ _ _ _ (by simp [matchKeyCased, kwHeader, kwDate])]
    rw [tryKeys_cons_fail_none _ _ _ _ _ (by simp [matchKeyCased, kwAuthor, kwDate])]
    exact tryKeys_cons_hit _ _ _ _ _ _ _ _ _ (matchKeyCased_exact kwDate _) hspan
  · unfold kKeys
    rw [tryKeys_cons_fail_none _ _ _ _ _ (by simp [matchKeyCased, kwId, kwDateTime])]
    rw [tryKeys_cons_fail_none _ _ _ _ _ (by simp [matchKeyCased, kwHeader, kwDateTime])]
    rw [tryKeys_cons_fail_none _ _ _ _ _ (by simp [matchKeyCased, kwAuthor, kwDateTime])]
    rw [tryKeys_cons_fail_not_colon _ _ _ _ _
      (kwDate, 'T' :: 'i' :: 'm' :: 'e' :: ':' :: (m ++ '$' :: tl))
      (by simp [matchKeyCased, kwDate, kwDateTime]) (by simp)]
    exact tryKeys_cons_hit _ _ _ _ _ _ _ _ _ (matchKeyCased_exact kwDateTime _) hspan
  · unfold kKeys
    rw [tryKeys_cons_fail_none _ _ _ _ _ (by simp [matchKeyCased, kwId, kwChange])]
    rw [tryKeys_cons_fail_none _ _ _ _ _ (by simp [matchKeyCased, kwHeader, kwChange])]
    rw [tryKeys_cons_fail_none _ _ _ _ _ (by simp [matchKeyCased, kwAuthor, kwChange])]
    rw [tryKeys_cons_fail_none _ _ _ _ _ (by simp [matchKeyCased, kwDate, kwChange])]
    rw [tryKeys_cons_fail_none _ _ _ _ _ (by simp [matchKeyCased, kwDateTime, kwChange])]
    exact tryKeys_cons_hit _ _ _ _ _ _ _ _ _ (matchKeyCased_exact kwChange _) hspan
  · unfold kKeys
    rw [tryKeys_cons_fail_none _ _ _ _ _ (by simp [matchKeyCased, kwId, kwFile])]
    rw [tryKeys_cons_fail_none _ _ _ _ _ (by simp [matchKeyCased, kwHeader, kwFile])]
    rw [tryKeys_cons_fail_none _ _ _ _ _ (by simp [matchKeyCased, kwAuthor, kwFile])]
    rw [tryKeys_cons_fail_none _ _ _ _ _ (by simp [matchKeyCased, kwDate, kwFile])]
    rw [tryKeys_cons_fail_none _ _ _ _ _ (by simp [matchKeyCased, kwDateTime, kwFile])]
    rw [tryKeys_cons_fail_none _ _ _ _ _ (by simp [matchKeyCased, kwChange, kwFile])]
    exact tryKeys_cons_hit _ _ _ _ _ _ _ _ _ (matchKeyCased_exact kwFile _) hspan
  · unfold kKeys
    rw [tryKeys_cons_fail_none _ _ _ _ _ (by simp [matchKeyCased, kwId, kwRevision])]
    rw [tryKeys_cons_fail_none _ _ _ _ _ (by simp [matchKeyCased, kwHeader, kwRevision])]
    rw [tryKeys_cons_fail_none _ _ _ _ _ (by simp [matchKeyCased, kwAuthor, kwRevision])]
    rw [tryKeys_cons_fail_none _ _ _ _ _ (by simp [matchKeyCased, kwDate, kwRevision])]
    rw [tryKeys_cons_fail_none _ _ _ _ _ (by simp [matchKeyCased, kwDateTime, kwRevision])]
    rw [tryKeys_cons_fail_none _ _ _ _ _ (by simp [matchKeyCased, kwChange, kwRevision])]
    rw [tryKeys_cons_fail_none _ _ _ _ _ (by simp [matchKeyCased, kwFile, kwRevision])]
    exact tryKeys_cons_hit _ _ _ _ _ _ _ _ _ (matchKeyCased_exact kwRevision _) hspan

/-- C7: keyword masking.  For a fetched file of a `+ko` type, the
leftmost occurrence of `$Id:...$` or `$Header:...$` — matched
case-insensitively, with the value running to the next `$` — is
replaced by its unexpanded form `$K$` (`K` as matched) and masking
continues to the right of it, so every occurrence is reduced; for a
`+k` type (including legacy `ktext`/`kxtext`) the same holds for all
eight keywords `Id`, `Header`, `Author`, `Date`, `DateTime`, `Change`,
`File`, `Revision`, matched case-sensitively and with the value
confined to one line; content free of `$` is left untouched for every
type. -/
theorem C7_keyword_masking (type a kc m tl : PStr) (ha : '$' ∉ a) :
    (type ∈ koTypes →
      (caseVariant kwId kc ∨ caseVariant kwHeader kc) → '$' ∉ m →
      applyKeywordMask type (a ++ '$' :: (kc ++ ':' :: (m ++ '$' :: tl)))
        = a ++ '$' :: (kc ++ '$' :: applyKeywordMask type tl)) ∧
    (type ∈ kTypes → kc ∈ kKeys → (∀ c ∈ m, c ≠ '$' ∧ c ≠ '\n') →
      applyKeywordMask type (a ++ '$' :: (kc ++ ':' :: (m ++ '$' :: tl)))
        = a ++ '$' :: (kc ++ '$' :: applyKeywordMask type tl)) ∧
    (∀ text : PStr, '$' ∉ text → applyKeywordMask type text = text) := by
  refine ⟨?_, ?_, ?_⟩
  · intro hty hkc hm
    have hko : koTypes.contains type = true := List.elem_iff.mpr hty
    unfold applyKeywordMask
    rw [if_pos hko, if_pos hko]
    rw [maskSub_append_no_dollar true false koKeys a _ ha]
    rw [maskSub_dollar_hit true false koKeys _ kc tl (tryKeys_ko kc m tl hkc hm)]
  · intro hty hkc hm
    have hnotko : ¬ (koTypes.contains type = true) := by
      fin_cases hty <;> decide
    have hk : kTypes.contains type = true := List.elem_iff.mpr hty
    unfold applyKeywordMask
    rw [if_neg hnotko, if_neg hnotko, if_pos hk, if_pos hk]
    rw [maskSub_append_no_dollar false true kKeys a _ ha]
    rw [maskSub_dollar_hit false true kKeys _ kc tl (tryKeys_k kc m tl hkc hm)]
  · intro text htext
    unfold applyKeywordMask
    split_ifs
    · exact maskSub_no_dollar true false koKeys text htext
    · exact maskSub_no_dollar false true kKeys text htext
    · rfl

/-- C7 witness: a `text+ko` file containing `hello $Id: 1.2 $rest` is
rewritten to `hello $Id$rest`. -/
theorem C7_keyword_masking_witness :
    applyKeywordMask (("text+ko").toList)
        ((("hello ").toList) ++ '$' :: (kwId ++ ':' :: (((" 1.2 ").toList)
          ++ '$' :: (("rest").toList))))
      = (("hello ").toList) ++ '$' :: (kwId ++ '$' :: (("rest").toList)) := by
  have hmain := (C7_keyword_masking (("text+ko").toList) (("hello ").toList) kwId
    ((" 1.2 ").toList) (("rest").toList) (by decide)).1 (by decide)
    (Or.inl (List.Forall₂.cons rfl (List.Forall₂.cons rfl List.Forall₂.nil)))
    (by decide)
  have hrest := (C7_keyword_masking (("text+ko").toList) (("hello ").toList) kwId
    ((" 1.2 ").toList) (("rest").toList) (by decide)).2.2 (("rest").toList) (by decide)
  rw [hmain, hrest]

/-! ## The import commit: `P4Sync.commit` (git-p4.py lines 1486-1661).
External collaborators (the p4 filelog behind `getMergeParentCommit`,
the git bisect behind `getGitCommitFromChange`, the label file listing
behind `getFilesForLabel`, the user map) enter through `SyncEnv`; the
fast-import byte stream is the returned list of `StreamCmd` records.
The filter hooks (`treeFilter`, `msgFilter`, `contentFilter`) are
unset, their source default, so `applyFilter` is the identity and file
data is never dropped by a content filter. -/

/-- The fields of the p4 `describe` output that `commit` reads, with
`change` already through `int`. -/
structure ChangeDetails where
  time : PStr
  user : PStr
  change : Nat
  desc : PStr
  options : PStr
  deriving Repr, DecidableEq

/-- Import-run environment: configuration flags plus the answers of the
external processes. -/
structure SyncEnv where
  users : List (PStr × PStr)
  tz : PStr
  clientSpecDirs : List (PStr × Int)
  detectBranches : Bool
  importIntoRemotes : Bool
  isWindows : Bool
  keepRepoPath : Bool
  fuzzyTags : Bool
  mergeParent : Option (Nat × PStr)
  gitCommitByChange : PStr → Nat → Option PStr
  labels : List (Nat × LabelDetails × List (PStr × PStr))
  labelFiles : Nat → List PStr

/-- Mutable pipeline state threaded through `commit`: the mark counter
and `changeListCommits`.  The latter is the nested dict
branch → changelist → mark, modelled as a flat association list keyed
by the (branch, changelist) pair with the same insert-overwrite and
lookup semantics. -/
structure SyncState where
  markCounter : Nat
  changeListCommits : List ((PStr × Nat) × Nat)
  deriving Repr, DecidableEq

/-- `self.changeListCommits[branch][change] = mark`. -/
def clcInsert (clc : List ((PStr × Nat) × Nat)) (branch : PStr)
    (change mark : Nat) : List ((PStr × Nat) × Nat) :=
  ((branch, change), mark) :: clc

/-- `self.changeListCommits[branch][change]` lookup. -/
def clcLookup (clc : List ((PStr × Nat) × Nat)) (branch : PStr)
    (change : Nat) : Option Nat :=
  (clc.find? (fun e => e.1 = (branch, change))).map (fun e => e.2)

/-- `re.sub("^(//[^/]+/).*", r'\1', p)` from `stripRepoPath` under
`keepRepoPath`: reduce a depot path to its `//component/` root (depot
paths contain no newlines, so `.*` spans the rest of the path). -/
def repoRootOf (p : PStr) : PStr :=
  match p with
  | '/' :: '/' :: rest =>
    let comp := rest.takeWhile (fun c => c ≠ '/')
    if comp ≠ [] ∧ (rest.drop comp.length) ≠ [] ∧ (rest.drop comp.length).headI = '/'
    then '/' :: '/' :: (comp ++ ['/'])
    else p
  | _ => p

/-- Hex digit test for `urllib.unquote`. -/
def isHexDigitB (c : Char) : Bool :=
  c.isDigit || ('a' ≤ c && c ≤ 'f') || ('A' ≤ c && c ≤ 'F')

/-- Hex digit value for `urllib.unquote`. -/
def hexVal (c : Char) : Nat :=
  if c.isDigit then c.toNat - 48
  else if 'a' ≤ c ∧ c ≤ 'f' then c.toNat - 87
  else c.toNat - 55

/-- `urllib.unquote`: decode `%XX` escapes, leaving malformed escapes
in place (paths come in percent-encoded for `@`, `%`, `#`, `*`). -/
def pyUnquote : PStr → PStr
  | [] => []
  | '%' :: a :: b :: rest =>
    if isHexDigitB a ∧ isHexDigitB b
    then Char.ofNat (16 * hexVal a + hexVal b) :: pyUnquote rest
    else '%' :: pyUnquote (a :: b :: rest)
  | c :: rest => c :: pyUnquote rest

/-- `P4Sync.stripRepoPath` (lines 1322-1333): under `keepRepoPath`
replace the prefix list by the depot root of its first entry; strip
every matching prefix in turn; percent-decode. -/
def stripRepoPath (keepRepoPath : Bool) (prefixes : List PStr) (path : PStr) : PStr :=
  let prefixes2 := if keepRepoPath then [repoRootOf prefixes.headI] else prefixes
  pyUnquote (prefixes2.foldl
    (fun p pre => if pre.isPrefixOf p then p.drop pre.length else p) path)

/-- The committer line (lines 1527-1533): the user-map entry when the
author is known (the lazy server refresh is an external query folded
into `users`), else the `<a@b>` fallback. -/
def committerLine (users : List (PStr × PStr)) (author epoch tz : PStr) : PStr :=
  match mapLookup users author with
  | some u => u ++ [' '] ++ epoch ++ [' '] ++ tz
  | none => author ++ (" <a@b> ").toList ++ epoch ++ [' '] ++ tz

/-- The records the file reader yields for a commit: the files kept by
the client-spec filter whose action is not a delete action
(`P4FileReader.filterClientSpec`, lines 712-732; content for each comes
back from `p4 print`). -/
def readerFiles (dirs : List (PStr × Int)) (files : List FileEntry) : List FileEntry :=
  (files.filter (fun f => filterClientSpecIncludes dirs f.path)).filter
    (fun f => !(delete_actions.contains f.action))

/-- Python `str.lower`. -/
def pyLower (s : PStr) : PStr := s.map Char.toLower

/-- The image extensions whose binary content is kept (line 1581; the
last entry `tiff` has no dot in the source). -/
def imageExts : List PStr :=
  [(".jpg").toList, (".jpeg").toList, (".gif").toList, (".png").toList,
   (".bmp").toList, (".ico").toList, (".tif").toList, ("tiff").toList]

/-- `data.replace("\r\n", "\n")` for CRLF hosts (lines 1584-1585). -/
def crlfToLf : PStr → PStr
  | '\r' :: '\n' :: rest => '\n' :: crlfToLf rest
  | c :: rest => c :: crlfToLf rest
  | [] => []

/-- The stream records emitted for one record of the file reader
(lines 1560-1607): skip `apple` types; `D` for deletes (unreachable
through the reader, kept for fidelity); otherwise `M <mode> inline`
with symlink newline stripping, binary blanking outside the image set,
and CRLF collapsing on Windows. -/
def fileLoopCmd (keepRepoPath isWindows : Bool) (branchPrefixes : List PStr)
    (f : FileEntry) : List StreamCmd :=
  if f.type = ("apple").toList then []
  else
    let relPath := stripRepoPath keepRepoPath branchPrefixes f.targetPath
    if delete_actions.contains f.action then [StreamCmd.fileDelete relPath]
    else
      let mode := gitFileMode f.type
      let data1 := if isP4Exec f.type then f.data
        else if f.type = ("symlink").toList then f.data.dropLast
        else f.data
      let data2 :=
        if ("binary").toList.isSuffixOf f.type
            ∧ ¬ (imageExts.any (fun x => x.isSuffixOf (pyLower f.path)))
        then [] else data1
      let data3 := if isWindows ∧ ("text").toList.isSuffixOf f.type
        then crlfToLf data2 else data2
      [StreamCmd.fileModify mode relPath data3]

/-- The second loop over `new_files` (lines 1609-1625): emit `D` for
delete-action files passing the client-spec check against the target
path. -/
def deleteLoopCmd (keepRepoPath : Bool) (dirs : List (PStr × Int))
    (branchPrefixes : List PStr) (f : FileEntry) : List StreamCmd :=
  if filterClientSpecIncludes dirs f.targetPath
      ∧ delete_actions.contains f.action
  then [StreamCmd.fileDelete (stripRepoPath keepRepoPath branchPrefixes f.targetPath)]
  else []

/-- The `merge` line of a merge commit (lines 1546-1558): resolve the
parent from `changeListCommits` first, then from the git history
bisect; a conflict or miss only warns. -/
def mergeCmds (env : SyncEnv) (st : SyncState) : List StreamCmd :=
  match env.mergeParent with
  | none => []
  | some (parentChange, parentBranch) =>
    match clcLookup st.changeListCommits parentBranch parentChange with
    | some m => [StreamCmd.mergeMark m]
    | none =>
      match env.gitCommitByChange parentBranch parentChange with
      | some commit => [StreamCmd.mergeRef commit]
      | none => []

/-- The stream a `commitLabel` outcome contributes. -/
def labelOutcomeCmds : LabelOutcome → List StreamCmd
  | LabelOutcome.tagged cmds => cmds
  | _ => []

/-- Model of `P4Sync.commit` (lines 1486-1661).  Returns `none` when
the run aborts inside `commitLabel` (the tagger `KeyError`), otherwise
the updated state and the emitted stream: optional checkpoint, commit
header with mark `markCounter`, optional `from`/`merge`, the file and
delete records, the companion note with mark `markCounter + 1`
referencing the commit's mark, and the label tag block. -/
def P4Sync.commit (env : SyncEnv) (st : SyncState) (details : ChangeDetails)
    (files : List FileEntry) (branch : PStr) (branchPrefixes : List PStr)
    (parent noteParent : PStr) (_filterBranchPrefixes : Bool) :
    Option (SyncState × List StreamCmd) :=
  if files = [] then some (st, [])
  else
    let change := details.change
    let filteredBranchPrefixes := branchPrefixes
    let new_files := files.filter (fun f =>
      filteredBranchPrefixes.any (fun p => p.isPrefixOf f.targetPath))
    let isMerge := env.detectBranches && isMergeCommit new_files
    let committer := committerLine env.users details.user details.time env.tz
    let header :=
      (if isMerge then [StreamCmd.checkpoint] else [])
      ++ [StreamCmd.commitRef branch, StreamCmd.mark st.markCounter,
          StreamCmd.committer committer, StreamCmd.dataStr details.desc]
      ++ (if parent ≠ [] then [StreamCmd.fromRef parent] else [])
      ++ (if isMerge then mergeCmds env st else [])
    let fileCmds := (readerFiles env.clientSpecDirs new_files).flatMap
      (fileLoopCmd env.keepRepoPath env.isWindows branchPrefixes)
    let deleteCmds := new_files.flatMap
      (deleteLoopCmd env.keepRepoPath env.clientSpecDirs branchPrefixes)
    let noteCmds :=
      [StreamCmd.commitRef (("refs/notes/git-p4").toList),
       StreamCmd.mark (st.markCounter + 1),
       StreamCmd.committer committer,
       StreamCmd.dataStr (("Note added by git-p4 import").toList)]
      ++ (if noteParent ≠ [] then [StreamCmd.fromRef noteParent] else [])
      ++ [StreamCmd.noteModify st.markCounter
            (noteBody branchPrefixes (natStr change) details.options)]
    let localBranch := branch.drop (getRefsPrefix env.importIntoRemotes).length
    let st2 : SyncState := ⟨st.markCounter + 2,
      clcInsert st.changeListCommits localBranch change st.markCounter⟩
    let labelOutcome := if env.detectBranches then LabelOutcome.noLabel
      else commitLabel env.labels (env.labelFiles change) env.users env.fuzzyTags
        env.detectBranches env.importIntoRemotes details.user details.time env.tz
        branch change
    if labelOutcome = LabelOutcome.taggerKeyError then none
    else
      some (st2, header ++ fileCmds ++ deleteCmds ++ noteCmds
        ++ labelOutcomeCmds labelOutcome)

/-- The marks assigned in a stream, in order. -/
def marksOf (cmds : List StreamCmd) : List Nat :=
  cmds.filterMap (fun c => match c with | StreamCmd.mark n => some n | _ => none)

/-- `importChanges` restricted to its `commit` calls: fold the per-call
state through a list of call arguments, aborting when a call aborts. -/
def commitFold (env : SyncEnv) :
    SyncState → List (ChangeDetails × List FileEntry × PStr × List PStr × PStr × PStr) →
    Option SyncState
  | st, [] => some st
  | st, a :: rest =>
    match P4Sync.commit env st a.1 a.2.1 a.2.2.1 a.2.2.2.1 a.2.2.2.2.1 a.2.2.2.2.2 true with
    | none => none
    | some (st', _) => commitFold env st' rest

theorem marksOf_append (a b : List StreamCmd) :
    marksOf (a ++ b) = marksOf a ++ marksOf b :=
  List.filterMap_append ..

theorem marksOf_fileLoopCmd (k w : Bool) (bp : List PStr) (f : FileEntry) :
    marksOf (fileLoopCmd k w bp f) = [] := by
  unfold fileLoopCmd
  split_ifs <;> simp [marksOf]

theorem marksOf_deleteLoopCmd (k : Bool) (dirs : List (PStr × Int))
    (bp : List PStr) (f : FileEntry) :
    marksOf (deleteLoopCmd k dirs bp f) = [] := by
  unfold deleteLoopCmd
  split_ifs <;> simp [marksOf]

theorem marksOf_flatMap_nil (l : List FileEntry) (g : FileEntry → List StreamCmd)
    (h : ∀ x ∈ l, marksOf (g x) = []) : marksOf (l.flatMap g) = [] := by
  induction l with
  | nil => rfl
  | cons x xs ih =>
    rw [List.flatMap_cons, marksOf_append, h x (by simp),
      ih (fun y hy => h y (by simp [hy]))]
    rfl

theorem marksOf_mergeCmds (env : SyncEnv) (st : SyncState) :
    marksOf (mergeCmds env st) = [] := by
  unfold mergeCmds
  cases env.mergeParent with
  | none => rfl
  | some p =>
    obtain ⟨pc, pb⟩ := p
    dsimp only
    cases clcLookup st.changeListCommits pb pc with
    | some m => simp [marksOf]
    | none =>
      dsimp only
      cases env.gitCommitByChange pb pc with
      | some c => simp [marksOf]
      | none => rfl

theorem marksOf_labelOutcomeCmds
    (labels : List (Nat × LabelDetails × List (PStr × PStr)))
    (labelFiles : List PStr) (users : List (PStr × PStr))
    (fz db ir : Bool) (a e t b : PStr) (c : Nat) :
    marksOf (labelOutcomeCmds (commitLabel labels labelFiles users fz db ir a e t b c))
      = [] := by
  unfold commitLabel
  cases labelsLookup labels c with
  | none => rfl
  | some ld =>
    obtain ⟨ld1, ld2⟩ := ld
    dsimp only
    split_ifs <;> try rfl
    cases commitLabelTagger users a ld1.owner e t with
    | none => rfl
    | some tg => simp [labelOutcomeCmds, marksOf]

theorem clcLookup_insert (clc : List ((PStr × Nat) × Nat)) (b : PStr) (c m : Nat) :
    clcLookup (clcInsert clc b c m) b c = some m := by
  unfold clcLookup clcInsert
  rw [List.find?_cons_of_pos _ (by simp)]
  rfl

theorem commit_some_shape (env : SyncEnv) (st : SyncState) (details : ChangeDetails)
    (files : List FileEntry) (branch : PStr) (branchPrefixes : List PStr)
    (parent noteParent : PStr) (fbp : Bool) (hf : files ≠ []) :
    ∀ st' out,
      P4Sync.commit env st details files branch branchPrefixes parent noteParent fbp
        = some (st', out) →
      st'.markCounter = st.markCounter + 2 ∧
      st'.changeListCommits = clcInsert st.changeListCommits
        (branch.drop (getRefsPrefix env.importIntoRemotes).length)
        details.change st.markCounter ∧
      marksOf out = [st.markCounter, st.markCounter + 1] ∧
      StreamCmd.noteModify st.markCounter
        (noteBody branchPrefixes (natStr details.change) details.options) ∈ out := by
  intro st' out h
  unfold P4Sync.commit at h
  rw [if_neg hf] at h
  dsimp only at h
  have hfc : marksOf ((readerFiles env.clientSpecDirs
      (files.filter (fun f => branchPrefixes.any (fun p => p.isPrefixOf f.targetPath)))).flatMap
      (fileLoopCmd env.keepRepoPath env.isWindows branchPrefixes)) = [] :=
    marksOf_flatMap_nil _ _ (fun x _ => marksOf_fileLoopCmd _ _ _ x)
  have hdc : marksOf ((files.filter (fun f => branchPrefixes.any
      (fun p => p.isPrefixOf f.targetPath))).flatMap
      (deleteLoopCmd env.keepRepoPath env.clientSpecDirs branchPrefixes)) = [] :=
    marksOf_flatMap_nil _ _ (fun x _ => marksOf_deleteLoopCmd _ _ _ x)
  by_cases hko : (if env.detectBranches = true then LabelOutcome.noLabel
      else commitLabel env.labels (env.labelFiles details.change) env.users
        env.fuzzyTags env.detectBranches env.importIntoRemotes details.user
        details.time env.tz branch details.change) = LabelOutcome.taggerKeyError
  · rw [if_pos hko] at h
    exact absurd h (by simp)
  · rw [if_neg hko] at h
    simp only [Option.some.injEq, Prod.mk.injEq] at h
    obtain ⟨hst, hout⟩ := h
    have hlab : marksOf (labelOutcomeCmds
        (if env.detectBranches = true then LabelOutcome.noLabel
         else commitLabel env.labels (env.labelFiles details.change) env.users
           env.fuzzyTags env.detectBranches env.importIntoRemotes details.user
           details.time env.tz branch details.change)) = [] := by
      by_cases hdb : env.detectBranches = true
      · rw [if_pos hdb]; rfl
      · rw [if_neg hdb]
        exact marksOf_labelOutcomeCmds env.labels (env.labelFiles details.change)
          env.users env.fuzzyTags env.detectBranches env.importIntoRemotes
          details.user details.time env.tz branch details.change
    refine ⟨by rw [← hst], by rw [← hst], ?_, ?_⟩
    · rw [← hout]
      simp only [marksOf_append, hfc, hdc, hlab]
      split_ifs <;> (try rw [marksOf_mergeCmds]) <;> rfl
    · rw [← hout]
      simp

theorem commit_mono (env : SyncEnv) (st : SyncState) (details : ChangeDetails)
    (files : List FileEntry) (branch : PStr) (branchPrefixes : List PStr)
    (parent noteParent : PStr) (fbp : Bool) :
    ∀ res, P4Sync.commit env st details files branch branchPrefixes parent noteParent fbp
      = some res → st.markCounter ≤ res.1.markCounter := by
  intro res h
  by_cases hf : files = []
  · subst hf
    unfold P4Sync.commit at h
    rw [if_pos rfl] at h
    simp only [Option.some.injEq] at h
    rw [← h]
  · obtain ⟨h1, _, _, _⟩ := commit_some_shape env st details files branch branchPrefixes
      parent noteParent fbp hf res.1 res.2 (by simpa using h)
    omega

theorem commitFold_mono (env : SyncEnv) :
    ∀ (l : List (ChangeDetails × List FileEntry × PStr × List PStr × PStr × PStr))
      (st st' : SyncState), commitFold env st l = some st' →
      st.markCounter ≤ st'.markCounter := by
  intro l
  induction l with
  | nil =>
    intro st st' h
    simp only [commitFold, Option.some.injEq] at h
    rw [h]
  | cons a rest ih =>
    intro st st' h
    unfold commitFold at h
    cases hc : P4Sync.commit env st a.1 a.2.1 a.2.2.1 a.2.2.2.1 a.2.2.2.2.1 a.2.2.2.2.2 true with
    | none => rw [hc] at h; exact absurd h (by simp)
    | some p =>
      rw [hc] at h
      obtain ⟨st2, outp⟩ := p
      have h1 : st.markCounter ≤ st2.markCounter :=
        commit_mono env st a.1 a.2.1 a.2.2.1 a.2.2.2.1 a.2.2.2.2.1 a.2.2.2.2.2 true
          (st2, outp) hc
      exact le_trans h1 (ih st2 st' h)

/-- The postcondition of a successful nonempty `commit` call: the
stream assigns exactly the marks `markCounter` and `markCounter + 1`,
the note attaches to the commit's mark, the counter advances by two,
and the commit's mark is recorded in `changeListCommits` under the
local branch and change number. -/
def commitPost (st : SyncState) (localBranch : PStr) (branchPrefixes : List PStr)
    (details : ChangeDetails) : Option (SyncState × List StreamCmd) → Prop
  | none => True
  | some (st', out) =>
      marksOf out = [st.markCounter, st.markCounter + 1] ∧
      StreamCmd.noteModify st.markCounter
        (noteBody branchPrefixes (natStr details.change) details.options) ∈ out ∧
      st'.markCounter = st.markCounter + 2 ∧
      clcLookup st'.changeListCommits localBranch details.change = some st.markCounter

/-- C8: mark-counter invariant of `P4Sync.commit` (lines 1486-1661) and
of the run that folds it (`importChanges`): a call with an empty file
list emits nothing and leaves the state unchanged; a call with files
that returns assigns exactly the two marks `markCounter` (the commit,
carrying the note reference) and `markCounter + 1` (the note), advances
`markCounter` by exactly 2, and records the commit's mark in
`changeListCommits` under the branch and change number; `markCounter`
never decreases, neither across one call nor across a whole run. -/
theorem C8_mark_counter_invariant (env : SyncEnv) (st : SyncState)
    (details : ChangeDetails) (files : List FileEntry) (branch : PStr)
    (branchPrefixes : List PStr) (parent noteParent : PStr) (fbp : Bool) :
    (files = [] →
      P4Sync.commit env st details files branch branchPrefixes parent noteParent fbp
        = some (st, [])) ∧
    (files ≠ [] →
      commitPost st (branch.drop (getRefsPrefix env.importIntoRemotes).length)
        branchPrefixes details
        (P4Sync.commit env st details files branch branchPrefixes parent noteParent fbp)) ∧
    (∀ res, P4Sync.commit env st details files branch branchPrefixes parent noteParent fbp
        = some res → st.markCounter ≤ res.1.markCounter) ∧
    (∀ argsList st', commitFold env st argsList = some st' →
        st.markCounter ≤ st'.markCounter) := by
  refine ⟨?_, ?_, ?_, ?_⟩
  · intro hf
    subst hf
    unfold P4Sync.commit
    rw [if_pos rfl]
  · intro hf
    cases hc : P4Sync.commit env st details files branch branchPrefixes parent noteParent fbp with
    | none => exact trivial
    | some res =>
      obtain ⟨st', out⟩ := res
      obtain ⟨h1, h2, h3, h4⟩ := commit_some_shape env st details files branch branchPrefixes
        parent noteParent fbp hf st' out hc
      exact ⟨h3, h4, h1, by rw [h2]; exact clcLookup_insert ..⟩
  · exact commit_mono env st details files branch branchPrefixes parent noteParent fbp
  · intro argsList st' h
    exact commitFold_mono env argsList st st' h

/-- Concrete environment for the C8 witness: no users, UTC, no client
spec, plain sync into remotes. -/
def c8Env : SyncEnv :=
  ⟨[], ("+0000").toList, [], false, true, false, false, false, none,
   fun _ _ => none, [], fun _ => []⟩

/-- Concrete pipeline state for the C8 witness. -/
def c8St : SyncState := ⟨1, []⟩

/-- Concrete changelist details for the C8 witness. -/
def c8Details : ChangeDetails :=
  ⟨("1289238991").toList, ("someuser").toList, 7, ("Test\n").toList, []⟩

/-- Concrete file list for the C8 witness. -/
def c8Files : List FileEntry :=
  [⟨("//depot/file.py").toList, ("10").toList, ("edit").toList,
    ("text").toList, ("//depot/file.py").toList, ("x").toList⟩]

theorem C8_mark_counter_invariant_witness :
    c8Files ≠ [] ∧
    commitPost c8St (("refs/remotes/p4/master").toList.drop
        (getRefsPrefix c8Env.importIntoRemotes).length)
      [("//depot/").toList] c8Details
      (P4Sync.commit c8Env c8St c8Details c8Files (("refs/remotes/p4/master").toList)
        [("//depot/").toList] [] [] true) :=
  ⟨by decide, (C8_mark_counter_invariant c8Env c8St c8Details c8Files
      (("refs/remotes/p4/master").toList) [("//depot/").toList] [] [] true).2.1
      (by decide)⟩
